import Mathlib

/-!
# Verification of the Chess_RL move-selection core

A shallow embedding of `src/search/minimax.py`, `src/search/mcts.py` and
`src/engine/evaluator.py`.  The board/move/legality engine (python-chess) is an
external collaborator ("Rules Engine", spec section 2/6): searches only consume
it through a fixed set of query functions, so it is embedded as a structure of
abstract operations (`Engine`).  Scores in the search are python floats that
start from `float('-inf')` / `float('inf')` and are otherwise the integer
centipawn values produced by `evaluate`; they are embedded as
`WithBot (WithTop Int)`, i.e. the integers extended with the two infinities
(no arithmetic is ever performed on scores inside the search, only order
operations, so this is exact).

The debug-only `nodes_searched` counter and `verbose` printing of the python
code are omitted (they do not affect any returned value).
-/

set_option maxHeartbeats 1600000

namespace ChessRL

/-- Search scores: integers (centipawns) extended with `-inf` and `+inf`,
mirroring python floats as used by the search (order comparisons only). -/
abbrev E : Type := WithBot (WithTop Int)

/-- Embed a finite centipawn value (the result of `evaluate`) into `E`. -/
def fin (v : Int) : E := ((v : WithTop Int) : WithBot (WithTop Int))

/-- The Rules Engine interface consumed by the searches (spec section 6):
the subset of python-chess `Board`/`Move` operations that
`src/search/minimax.py` and `src/search/mcts.py` actually call.
`turn` follows python-chess conventions: `true` = WHITE, `false` = BLACK.
`promotion mv = true` mirrors `move.promotion` being truthy, and
`piece_at` returns the `piece_type` (1..6) of the piece on a square. -/
structure Engine where
  Position : Type
  Move : Type
  legal_moves : Position → List Move
  push : Position → Move → Position
  turn : Position → Bool
  is_game_over : Position → Bool
  is_checkmate : Position → Bool
  is_check : Position → Bool
  is_capture : Position → Move → Bool
  promotion : Move → Bool
  to_square : Move → Nat
  from_square : Move → Nat
  piece_at : Position → Nat → Option Int

namespace Search

variable (G : Engine)

/-- `move_priority` from `src/search/minimax.py` (lines 150-176): MVV-LVA
capture score, +50 for checks (detected on a pushed copy), +900 for
promotions. -/
def move_priority (b : G.Position) (mv : G.Move) : Int :=
  (if G.is_capture b mv then
      (match G.piece_at b (G.to_square mv) with
       | some pt => pt * 100
       | none => 0)
      +
      (match G.piece_at b (G.from_square mv) with
       | some pt => -pt
       | none => 0)
    else 0)
  + (if G.is_check (G.push b mv) then 50 else 0)
  + (if G.promotion mv then 900 else 0)

/-- `order_moves` (minimax.py lines 133-179): stable sort by descending
priority (python `sorted(..., reverse=True)`). -/
def order_moves (b : G.Position) (moves : List G.Move) :
    List G.Move :=
  moves.mergeSort (fun m₁ m₂ => move_priority G b m₂ ≤ move_priority G b m₁)

/-- One step of the noisy-move collection of `quiescence_search`
(minimax.py lines 82-99): keep captures and promotions, and — only while
fewer than 5 noisy moves have been collected — checks (detected by
push / is_check / pop on a quiet move). -/
def noisyStep (b : G.Position) (acc : List G.Move) (mv : G.Move) :
    List G.Move :=
  if G.is_capture b mv then acc ++ [mv]
  else if G.promotion mv then acc ++ [mv]
  else if acc.length < 5 then
    (if G.is_check (G.push b mv) then acc ++ [mv] else acc)
  else acc

/-- The noisy-move collection of `quiescence_search` (minimax.py lines
78-103). -/
def noisyMoves (b : G.Position) : List G.Move :=
  (G.legal_moves b).foldl (noisyStep G b) []

/-- The maximizing move loop of `quiescence_search` (minimax.py lines
109-119): fail-hard — `return beta` on a beta cutoff, raise `alpha` on
improvement, `return alpha` when the moves are exhausted.  `f` is the
recursive call at one smaller `max_depth`. -/
def qloopMax (f : G.Position → E → E → E) (b : G.Position) :
    List G.Move → E → E → E
  | [], α, _ => α
  | mv :: rest, α, β =>
      let score := f (G.push b mv) α β
      if β ≤ score then β
      else qloopMax f b rest (if α < score then score else α) β

/-- The minimizing move loop of `quiescence_search` (minimax.py lines
120-130): fail-hard — `return alpha` on an alpha cutoff, lower `beta`,
`return beta` at the end. -/
def qloopMin (f : G.Position → E → E → E) (b : G.Position) :
    List G.Move → E → E → E
  | [], _, β => β
  | mv :: rest, α, β =>
      let score := f (G.push b mv) α β
      if score ≤ α then α
      else qloopMin f b rest α (if score < β then score else β)

/-- `quiescence_search` (minimax.py lines 25-130).  Recursion is on
`max_depth` (`d`); at `d = 0` the python code returns `stand_pat`, which is
`evaluate(board)` — the same value the game-over branch returns, so the
`d = 0` case is `evaluate(board)` on both paths. -/
def quiescence_search (ev : G.Position → Int) :
    Nat → G.Position → E → E → Bool → E
  | 0, b, _, _, _ =>
      if G.is_game_over b then fin (ev b) else fin (ev b)
  | d + 1, b, α, β, maximizing =>
      if G.is_game_over b then fin (ev b)
      else
        let stand_pat := fin (ev b)
        if maximizing then
          if β ≤ stand_pat then β
          else
            let α' := if α < stand_pat then stand_pat else α
            let noisy := noisyMoves G b
            if noisy.isEmpty then stand_pat
            else
              qloopMax G (fun p a bb => quiescence_search ev d p a bb false) b
                (order_moves G b noisy) α' β
        else
          if stand_pat ≤ α then α
          else
            let β' := if stand_pat < β then stand_pat else β
            let noisy := noisyMoves G b
            if noisy.isEmpty then stand_pat
            else
              qloopMin G (fun p a bb => quiescence_search ev d p a bb true) b
                (order_moves G b noisy) α β'

/-- The maximizing move loop of `minimax` (minimax.py lines 223-238):
fail-soft — track `max_eval` separately from `alpha`, break (returning
`max_eval`, not `beta`) once `beta <= alpha`. -/
def mmLoopMax (f : G.Position → E → E → E) (b : G.Position) :
    List G.Move → E → E → E → E
  | [], best, _, _ => best
  | mv :: rest, best, α, β =>
      let s := f (G.push b mv) α β
      let best' := max best s
      let α' := max α s
      if β ≤ α' then best'
      else mmLoopMax f b rest best' α' β

/-- The minimizing move loop of `minimax` (minimax.py lines 239-254):
fail-soft with `min_eval` and `beta`. -/
def mmLoopMin (f : G.Position → E → E → E) (b : G.Position) :
    List G.Move → E → E → E → E
  | [], best, _, _ => best
  | mv :: rest, best, α, β =>
      let s := f (G.push b mv) α β
      let best' := min best s
      let β' := min β s
      if β' ≤ α then best'
      else mmLoopMin f b rest best' α β'

/-- `minimax` (minimax.py lines 182-254): alpha-beta minimax; at `depth = 0`
it delegates to `quiescence_search` with the default `max_depth = 10`.
`depth` is a natural number; the python `if depth == 0` test and this match
agree on every call reachable from `best_move_minimax` with `depth ≥ 1`
(the python code never validates depth — see claim C9 — and a call with a
negative python depth would instead descend to terminal positions). -/
def minimax (ev : G.Position → Int) :
    Nat → G.Position → E → E → Bool → E
  | 0, b, α, β, maximizing =>
      if G.is_game_over b then fin (ev b)
      else quiescence_search G ev 10 b α β maximizing
  | depth + 1, b, α, β, maximizing =>
      if G.is_game_over b then fin (ev b)
      else
        let legal := G.legal_moves b
        if legal.isEmpty then fin (ev b)
        else
          let ordered := order_moves G b legal
          if maximizing then
            mmLoopMax G (fun p a bb => minimax ev depth p a bb false) b
              ordered ⊥ α β
          else
            mmLoopMin G (fun p a bb => minimax ev depth p a bb true) b
              ordered ⊤ α β

/-- The root move loop of `best_move_minimax` (minimax.py lines 297-314):
no pruning break; the maximizing/minimizing decision is re-made per move
from `board.turn` *after* the push. -/
def bmLoop (ev : G.Position → Int) (depth : Nat) (b : G.Position) :
    List G.Move → Option G.Move → E → E → E → Option G.Move
  | [], best_move, _, _, _ => best_move
  | mv :: rest, best_move, best_score, α, β =>
      let child := G.push b mv
      if G.turn child = false then
        let score := minimax G ev depth child α β false
        if best_score < score then
          bmLoop ev depth b rest (some mv) score (max α score) β
        else
          bmLoop ev depth b rest best_move best_score (max α score) β
      else
        let score := minimax G ev depth child α β true
        if score < best_score then
          bmLoop ev depth b rest (some mv) score α (min β score)
        else
          bmLoop ev depth b rest best_move best_score α (min β score)

/-- `best_move_minimax` (minimax.py lines 257-323): `None` when there are no
legal moves; the sole move immediately when there is exactly one; otherwise
one ordered root ply threading alpha/beta.  `depth - 1` is passed to
`minimax`; callers use `depth ≥ 1` (see claim C9 for the absent
validation). -/
def best_move_minimax (ev : G.Position → Int) (b : G.Position) (depth : Nat) :
    Option G.Move :=
  let legal := G.legal_moves b
  match legal with
  | [] => none
  | [mv] => some mv
  | _ =>
      let ordered := order_moves G b legal
      let best_score : E := if G.turn b then ⊥ else ⊤
      bmLoop G ev (depth - 1) b ordered none best_score ⊥ ⊤

/-- Reference definition for claim C3, following the spec's words: the value
of the *unpruned full* quiescence traversal — no alpha/beta window, no move
ordering; the stand-pat value is combined by max/min with every noisy
continuation. -/
def qtrue (ev : G.Position → Int) : Nat → G.Position → Bool → E
  | 0, b, _ => fin (ev b)
  | d + 1, b, maximizing =>
      if G.is_game_over b then fin (ev b)
      else
        let stand_pat := fin (ev b)
        let noisy := noisyMoves G b
        if maximizing then
          noisy.foldl (fun acc mv => max acc (qtrue ev d (G.push b mv) false))
            stand_pat
        else
          noisy.foldl (fun acc mv => min acc (qtrue ev d (G.push b mv) true))
            stand_pat

/-- Reference definition for claim C3, following the spec's words: the value
of an *unpruned full minimax traversal* — no window, no ordering, with the
same leaves (the full quiescence traversal at depth 0). -/
def minimax_full (ev : G.Position → Int) : Nat → G.Position → Bool → E
  | 0, b, maximizing =>
      if G.is_game_over b then fin (ev b)
      else qtrue G ev 10 b maximizing
  | depth + 1, b, maximizing =>
      if G.is_game_over b then fin (ev b)
      else
        let legal := G.legal_moves b
        if legal.isEmpty then fin (ev b)
        else if maximizing then
          legal.foldl
            (fun acc mv => max acc (minimax_full ev depth (G.push b mv) false)) ⊥
        else
          legal.foldl
            (fun acc mv => min acc (minimax_full ev depth (G.push b mv) true)) ⊤

end Search

namespace Search

variable {G : Engine}

/-! ## Generic fold lemmas for max/min over lists (used by claim C3) -/

theorem foldl_max_le_iff {A γ : Type} [LinearOrder γ] (g : A → γ) :
    ∀ (l : List A) (a c : γ),
      l.foldl (fun acc x => max acc (g x)) a ≤ c ↔ a ≤ c ∧ ∀ x ∈ l, g x ≤ c
  | [], a, c => by simp
  | x :: l, a, c => by
      rw [List.foldl_cons, foldl_max_le_iff g l (max a (g x)) c]
      simp only [max_le_iff, List.mem_cons]
      constructor
      · rintro ⟨⟨h₁, h₂⟩, h₃⟩
        exact ⟨h₁, fun y hy => by rcases hy with rfl | hy; exact h₂; exact h₃ y hy⟩
      · rintro ⟨h₁, h₂⟩
        exact ⟨⟨h₁, h₂ x (Or.inl rfl)⟩, fun y hy => h₂ y (Or.inr hy)⟩

theorem le_foldl_max_iff {A γ : Type} [LinearOrder γ] (g : A → γ) :
    ∀ (l : List A) (a c : γ),
      c ≤ l.foldl (fun acc x => max acc (g x)) a ↔ c ≤ a ∨ ∃ x ∈ l, c ≤ g x
  | [], a, c => by simp
  | x :: l, a, c => by
      rw [List.foldl_cons, le_foldl_max_iff g l (max a (g x)) c]
      simp only [le_max_iff, List.mem_cons]
      constructor
      · rintro ((h | h) | ⟨y, hy, h⟩)
        · exact Or.inl h
        · exact Or.inr ⟨x, Or.inl rfl, h⟩
        · exact Or.inr ⟨y, Or.inr hy, h⟩
      · rintro (h | ⟨y, rfl | hy, h⟩)
        · exact Or.inl (Or.inl h)
        · exact Or.inl (Or.inr h)
        · exact Or.inr ⟨y, hy, h⟩

theorem foldl_max_seed_le {A γ : Type} [LinearOrder γ] (g : A → γ)
    (l : List A) (a : γ) : a ≤ l.foldl (fun acc x => max acc (g x)) a :=
  (le_foldl_max_iff g l a a).mpr (Or.inl le_rfl)

theorem foldl_max_le_of_mem {A γ : Type} [LinearOrder γ] (g : A → γ)
    {l : List A} {x : A} (hx : x ∈ l) (a : γ) :
    g x ≤ l.foldl (fun acc x => max acc (g x)) a :=
  ((foldl_max_le_iff g l a _).mp le_rfl).2 x hx

theorem foldl_max_seed_max {A γ : Type} [LinearOrder γ] (g : A → γ) :
    ∀ (l : List A) (a b : γ),
      l.foldl (fun acc x => max acc (g x)) (max a b)
        = max a (l.foldl (fun acc x => max acc (g x)) b)
  | [], a, b => rfl
  | x :: l, a, b => by
      rw [List.foldl_cons, List.foldl_cons, max_assoc, foldl_max_seed_max g l a]

theorem foldl_max_perm {A γ : Type} [LinearOrder γ] (g : A → γ)
    {l₁ l₂ : List A} (h : l₁.Perm l₂) (a : γ) :
    l₁.foldl (fun acc x => max acc (g x)) a
      = l₂.foldl (fun acc x => max acc (g x)) a := by
  induction h generalizing a with
  | nil => rfl
  | cons x _ ih => rw [List.foldl_cons, List.foldl_cons, ih]
  | swap x y l =>
      simp only [List.foldl_cons]
      rw [sup_right_comm]
  | trans _ _ ih₁ ih₂ => rw [ih₁, ih₂]

theorem foldl_min_le_iff {A γ : Type} [LinearOrder γ] (g : A → γ)
    (l : List A) (a c : γ) :
    c ≤ l.foldl (fun acc x => min acc (g x)) a ↔ c ≤ a ∧ ∀ x ∈ l, c ≤ g x :=
  foldl_max_le_iff (γ := γᵒᵈ) g l a c

theorem le_foldl_min_iff {A γ : Type} [LinearOrder γ] (g : A → γ)
    (l : List A) (a c : γ) :
    l.foldl (fun acc x => min acc (g x)) a ≤ c ↔ a ≤ c ∨ ∃ x ∈ l, g x ≤ c :=
  le_foldl_max_iff (γ := γᵒᵈ) g l a c

theorem foldl_min_seed_le {A γ : Type} [LinearOrder γ] (g : A → γ)
    (l : List A) (a : γ) : l.foldl (fun acc x => min acc (g x)) a ≤ a :=
  foldl_max_seed_le (γ := γᵒᵈ) g l a

theorem foldl_min_le_of_mem {A γ : Type} [LinearOrder γ] (g : A → γ)
    {l : List A} {x : A} (hx : x ∈ l) (a : γ) :
    l.foldl (fun acc x => min acc (g x)) a ≤ g x :=
  foldl_max_le_of_mem (γ := γᵒᵈ) g hx a

theorem foldl_min_seed_min {A γ : Type} [LinearOrder γ] (g : A → γ)
    (l : List A) (a b : γ) :
    l.foldl (fun acc x => min acc (g x)) (min a b)
      = min a (l.foldl (fun acc x => min acc (g x)) b) :=
  foldl_max_seed_max (γ := γᵒᵈ) g l a b

theorem foldl_min_perm {A γ : Type} [LinearOrder γ] (g : A → γ)
    {l₁ l₂ : List A} (h : l₁.Perm l₂) (a : γ) :
    l₁.foldl (fun acc x => min acc (g x)) a
      = l₂.foldl (fun acc x => min acc (g x)) a :=
  foldl_max_perm (γ := γᵒᵈ) g h a

/-- `order_moves` is a permutation of its input (python `sorted`). -/
theorem order_moves_perm (b : G.Position) (moves : List G.Move) :
    (order_moves G b moves).Perm moves :=
  List.mergeSort_perm moves _

theorem mem_order_moves {b : G.Position} {moves : List G.Move} {mv : G.Move} :
    mv ∈ order_moves G b moves ↔ mv ∈ moves :=
  (order_moves_perm b moves).mem_iff

end Search

namespace Search

variable {G : Engine}

/-! ## The alpha-beta soundness invariant (claims C3, C4)

`approxE v r α β` is the classical Knuth-Moore relation between the true
(window-free) value `v` of a subtree and the result `r` returned by a
windowed search of that subtree: fail low at or under `α`, fail high at or
over `β`, exact inside the open window. -/

def approxE (v r α β : E) : Prop :=
  (v ≤ α → r ≤ α) ∧ (β ≤ v → β ≤ r) ∧ (α < v → v < β → r = v)

theorem approxE_refl (v α β : E) : approxE v v α β :=
  ⟨fun h => h, fun h => h, fun _ _ => rfl⟩

/-! Loop lemmas for the fail-hard quiescence loops.  `cv mv` is the true
(window-free) value of the child reached by `mv`; the hypothesis `hf` says
the recursive search approximates it at every valid window. -/

theorem qloopMax_all_low {f : G.Position → E → E → E} {b : G.Position}
    {cv : G.Move → E} :
    ∀ {ms : List G.Move} {α β : E},
      (∀ mv ∈ ms, ∀ a bb : E, a < bb → approxE (cv mv) (f (G.push b mv) a bb) a bb) →
      (∀ mv ∈ ms, cv mv ≤ α) → α < β → qloopMax G f b ms α β = α
  | [], α, β, _, _, _ => rfl
  | mv :: rest, α, β, hf, hlow, hαβ => by
      have hs : f (G.push b mv) α β ≤ α :=
        (hf mv (List.mem_cons_self mv rest) α β hαβ).1 (hlow mv (List.mem_cons_self mv rest))
      rw [qloopMax]
      rw [if_neg (by exact fun h => absurd (h.trans hs) (not_le.mpr hαβ))]
      rw [if_neg (not_lt.mpr hs)]
      exact qloopMax_all_low (fun m hm => hf m (List.mem_cons_of_mem mv hm))
        (fun m hm => hlow m (List.mem_cons_of_mem mv hm)) hαβ

theorem qloopMax_some_high {f : G.Position → E → E → E} {b : G.Position}
    {cv : G.Move → E} :
    ∀ {ms : List G.Move} {α β : E},
      (∀ mv ∈ ms, ∀ a bb : E, a < bb → approxE (cv mv) (f (G.push b mv) a bb) a bb) →
      α < β → (∃ mv ∈ ms, β ≤ cv mv) → β ≤ qloopMax G f b ms α β
  | [], α, β, _, _, h => by simp at h
  | mv :: rest, α, β, hf, hαβ, hhigh => by
      rw [qloopMax]
      by_cases hcut : β ≤ f (G.push b mv) α β
      · rw [if_pos hcut]
      · rw [if_neg hcut]
        rcases hhigh with ⟨w, hw, hwv⟩
        rcases List.mem_cons.mp hw with rfl | hw'
        · exact absurd ((hf w (List.mem_cons_self w rest) α β hαβ).2.1 hwv) hcut
        · have hα' : (if α < f (G.push b mv) α β then f (G.push b mv) α β else α) < β := by
            split
            · exact lt_of_not_le hcut
            · exact hαβ
          exact qloopMax_some_high (fun m hm => hf m (List.mem_cons_of_mem mv hm))
            hα' ⟨w, hw', hwv⟩

theorem qloopMax_exact {f : G.Position → E → E → E} {b : G.Position}
    {cv : G.Move → E} :
    ∀ {ms : List G.Move} {α β : E},
      (∀ mv ∈ ms, ∀ a bb : E, a < bb → approxE (cv mv) (f (G.push b mv) a bb) a bb) →
      α < β →
      (ms.foldl (fun acc mv => max acc (cv mv)) α < β) →
      qloopMax G f b ms α β = ms.foldl (fun acc mv => max acc (cv mv)) α
  | [], α, β, _, _, _ => rfl
  | mv :: rest, α, β, hf, hαβ, hT => by
      have hmem := List.mem_cons_self mv rest
      have hcvT : cv mv ≤ (mv :: rest).foldl (fun acc mv => max acc (cv mv)) α := by
        rw [List.foldl_cons]
        exact le_trans (le_max_right α (cv mv)) (foldl_max_seed_le _ rest _)
      have hcvβ : cv mv < β := lt_of_le_of_lt hcvT hT
      rw [qloopMax]
      rcases le_or_lt (cv mv) α with hle | hgt
      · have hs : f (G.push b mv) α β ≤ α := (hf mv hmem α β hαβ).1 hle
        rw [if_neg (by exact fun h => absurd (h.trans hs) (not_le.mpr hαβ))]
        rw [if_neg (not_lt.mpr hs)]
        have hseed : max α (cv mv) = α := max_eq_left hle
        rw [List.foldl_cons] at hT ⊢
        rw [hseed] at hT ⊢
        exact qloopMax_exact (fun m hm => hf m (List.mem_cons_of_mem mv hm)) hαβ hT
      · have hs : f (G.push b mv) α β = cv mv := (hf mv hmem α β hαβ).2.2 hgt hcvβ
        rw [hs, if_neg (not_le.mpr hcvβ), if_pos hgt]
        have hseed : max α (cv mv) = cv mv := max_eq_right hgt.le
        rw [List.foldl_cons] at hT ⊢
        rw [hseed] at hT ⊢
        exact qloopMax_exact (fun m hm => hf m (List.mem_cons_of_mem mv hm)) hcvβ hT

theorem qloopMin_all_high {f : G.Position → E → E → E} {b : G.Position}
    {cv : G.Move → E} :
    ∀ {ms : List G.Move} {α β : E},
      (∀ mv ∈ ms, ∀ a bb : E, a < bb → approxE (cv mv) (f (G.push b mv) a bb) a bb) →
      (∀ mv ∈ ms, β ≤ cv mv) → α < β → qloopMin G f b ms α β = β
  | [], α, β, _, _, _ => rfl
  | mv :: rest, α, β, hf, hhigh, hαβ => by
      have hs : β ≤ f (G.push b mv) α β :=
        (hf mv (List.mem_cons_self mv rest) α β hαβ).2.1 (hhigh mv (List.mem_cons_self mv rest))
      rw [qloopMin]
      rw [if_neg (by exact fun h => absurd (hs.trans h) (not_le.mpr hαβ))]
      rw [if_neg (not_lt.mpr hs)]
      exact qloopMin_all_high (fun m hm => hf m (List.mem_cons_of_mem mv hm))
        (fun m hm => hhigh m (List.mem_cons_of_mem mv hm)) hαβ

theorem qloopMin_some_low {f : G.Position → E → E → E} {b : G.Position}
    {cv : G.Move → E} :
    ∀ {ms : List G.Move} {α β : E},
      (∀ mv ∈ ms, ∀ a bb : E, a < bb → approxE (cv mv) (f (G.push b mv) a bb) a bb) →
      α < β → (∃ mv ∈ ms, cv mv ≤ α) → qloopMin G f b ms α β ≤ α
  | [], α, β, _, _, h => by simp at h
  | mv :: rest, α, β, hf, hαβ, hlow => by
      rw [qloopMin]
      by_cases hcut : f (G.push b mv) α β ≤ α
      · rw [if_pos hcut]
      · rw [if_neg hcut]
        rcases hlow with ⟨w, hw, hwv⟩
        rcases List.mem_cons.mp hw with rfl | hw'
        · exact absurd ((hf w (List.mem_cons_self w rest) α β hαβ).1 hwv) hcut
        · have hβ' : α < (if f (G.push b mv) α β < β then f (G.push b mv) α β else β) := by
            split
            · exact lt_of_not_le hcut
            · exact hαβ
          exact qloopMin_some_low (fun m hm => hf m (List.mem_cons_of_mem mv hm))
            hβ' ⟨w, hw', hwv⟩

theorem qloopMin_exact {f : G.Position → E → E → E} {b : G.Position}
    {cv : G.Move → E} :
    ∀ {ms : List G.Move} {α β : E},
      (∀ mv ∈ ms, ∀ a bb : E, a < bb → approxE (cv mv) (f (G.push b mv) a bb) a bb) →
      α < β →
      (α < ms.foldl (fun acc mv => min acc (cv mv)) β) →
      qloopMin G f b ms α β = ms.foldl (fun acc mv => min acc (cv mv)) β
  | [], α, β, _, _, _ => rfl
  | mv :: rest, α, β, hf, hαβ, hT => by
      have hmem := List.mem_cons_self mv rest
      have hcvT : (mv :: rest).foldl (fun acc mv => min acc (cv mv)) β ≤ cv mv := by
        rw [List.foldl_cons]
        exact le_trans (foldl_min_seed_le _ rest _) (min_le_right β (cv mv))
      have hcvα : α < cv mv := lt_of_lt_of_le hT hcvT
      rw [qloopMin]
      rcases le_or_lt β (cv mv) with hge | hlt
      · have hs : β ≤ f (G.push b mv) α β := (hf mv hmem α β hαβ).2.1 hge
        rw [if_neg (by exact fun h => absurd (hs.trans h) (not_le.mpr hαβ))]
        rw [if_neg (not_lt.mpr hs)]
        have hseed : min β (cv mv) = β := min_eq_left hge
        rw [List.foldl_cons] at hT ⊢
        rw [hseed] at hT ⊢
        exact qloopMin_exact (fun m hm => hf m (List.mem_cons_of_mem mv hm)) hαβ hT
      · have hs : f (G.push b mv) α β = cv mv := (hf mv hmem α β hαβ).2.2 hcvα hlt
        rw [hs, if_neg (not_le.mpr hcvα), if_pos hlt]
        have hseed : min β (cv mv) = cv mv := min_eq_right hlt.le
        rw [List.foldl_cons] at hT ⊢
        rw [hseed] at hT ⊢
        exact qloopMin_exact (fun m hm => hf m (List.mem_cons_of_mem mv hm)) hcvα hT

end Search

namespace Search

variable {G : Engine}

/-- Knuth-Moore soundness of `quiescence_search` against the unpruned full
quiescence traversal `qtrue`: at every valid window the fail-hard windowed
search fails low/high correctly and is exact inside the window. -/
theorem quiescence_approx (ev : G.Position → Int) (d : Nat) :
    ∀ (b : G.Position) (α β : E) (m : Bool), α < β →
      approxE (qtrue G ev d b m) (quiescence_search G ev d b α β m) α β := by
  induction d with
  | zero =>
      intro b α β m hαβ
      rw [qtrue, quiescence_search]
      split <;> exact approxE_refl _ _ _
  | succ d ih =>
      intro b α β m hαβ
      rw [qtrue, quiescence_search]
      by_cases hgo : G.is_game_over b
      · rw [if_pos hgo, if_pos hgo]
        exact approxE_refl _ _ _
      · rw [if_neg hgo, if_neg hgo]
        simp only
        cases m with
        | true =>
            rw [if_pos rfl, if_pos rfl]
            by_cases hβs : β ≤ fin (ev b)
            · rw [if_pos hβs]
              refine ⟨?_, fun _ => le_rfl, ?_⟩
              · intro h
                exact absurd (hβs.trans ((foldl_max_seed_le _ _ _).trans h))
                  (not_le.mpr hαβ)
              · intro _ h2
                exact absurd (lt_of_le_of_lt (hβs.trans (foldl_max_seed_le _ _ _)) h2)
                  (lt_irrefl β)
            · rw [if_neg hβs]
              have hsβ : fin (ev b) < β := lt_of_not_le hβs
              have hα'β : (if α < fin (ev b) then fin (ev b) else α) < β := by
                split
                · exact hsβ
                · exact hαβ
              have hmaxeq : (if α < fin (ev b) then fin (ev b) else α)
                  = max α (fin (ev b)) := by
                rcases lt_or_le α (fin (ev b)) with h | h
                · rw [if_pos h, max_eq_right h.le]
                · rw [if_neg (not_lt.mpr h), max_eq_left h]
              by_cases hno : (noisyMoves G b).isEmpty
              · rw [if_pos hno]
                rw [List.isEmpty_iff.mp hno]
                exact approxE_refl _ _ _
              · rw [if_neg hno]
                have hperm := order_moves_perm (G := G) b (noisyMoves G b)
                have hf : ∀ mv ∈ order_moves G b (noisyMoves G b), ∀ a bb : E,
                    a < bb →
                    approxE (qtrue G ev d (G.push b mv) false)
                      (quiescence_search G ev d (G.push b mv) a bb false) a bb :=
                  fun mv _ a bb h => ih (G.push b mv) a bb false h
                have hT : (order_moves G b (noisyMoves G b)).foldl
                    (fun acc mv => max acc (qtrue G ev d (G.push b mv) false))
                    (if α < fin (ev b) then fin (ev b) else α)
                    = max α ((noisyMoves G b).foldl
                        (fun acc mv => max acc (qtrue G ev d (G.push b mv) false))
                        (fin (ev b))) := by
                  rw [foldl_max_perm _ hperm, hmaxeq, foldl_max_seed_max]
                refine ⟨?_, ?_, ?_⟩
                · intro hva
                  have hsα : fin (ev b) ≤ α := (foldl_max_seed_le _ _ _).trans hva
                  have hα' : (if α < fin (ev b) then fin (ev b) else α) = α := by
                    rw [if_neg (not_lt.mpr hsα)]
                  rw [hα']
                  have hlow := (foldl_max_le_iff _ (noisyMoves G b) _ α).mp hva
                  refine le_of_eq (qloopMax_all_low hf ?_ hαβ)
                  intro mv hmv
                  exact hlow.2 mv (mem_order_moves.mp hmv)
                · intro hβv
                  rcases (le_foldl_max_iff _ (noisyMoves G b) _ β).mp hβv with h | ⟨w, hw, hwv⟩
                  · exact absurd h hβs
                  · exact qloopMax_some_high hf hα'β ⟨w, mem_order_moves.mpr hw, hwv⟩
                · intro h1 h2
                  have hTv : (order_moves G b (noisyMoves G b)).foldl
                      (fun acc mv => max acc (qtrue G ev d (G.push b mv) false))
                      (if α < fin (ev b) then fin (ev b) else α)
                      = (noisyMoves G b).foldl
                          (fun acc mv => max acc (qtrue G ev d (G.push b mv) false))
                          (fin (ev b)) := by
                    rw [hT, max_eq_right h1.le]
                  rw [← hTv] at h2 ⊢
                  exact qloopMax_exact hf hα'β h2
        | false =>
            rw [if_neg Bool.false_ne_true, if_neg Bool.false_ne_true]
            by_cases hαs : fin (ev b) ≤ α
            · rw [if_pos hαs]
              refine ⟨fun _ => le_rfl, ?_, ?_⟩
              · intro h
                exact absurd (h.trans ((foldl_min_seed_le _ _ _).trans hαs))
                  (not_le.mpr hαβ)
              · intro h1 _
                exact absurd (lt_of_lt_of_le h1 ((foldl_min_seed_le _ _ _).trans hαs))
                  (lt_irrefl α)
            · rw [if_neg hαs]
              have hsα : α < fin (ev b) := lt_of_not_le hαs
              have hαβ' : α < (if fin (ev b) < β then fin (ev b) else β) := by
                split
                · exact hsα
                · exact hαβ
              have hmineq : (if fin (ev b) < β then fin (ev b) else β)
                  = min β (fin (ev b)) := by
                rcases lt_or_le (fin (ev b)) β with h | h
                · rw [if_pos h, min_eq_right h.le]
                · rw [if_neg (not_lt.mpr h), min_eq_left h]
              by_cases hno : (noisyMoves G b).isEmpty
              · rw [if_pos hno]
                rw [List.isEmpty_iff.mp hno]
                exact approxE_refl _ _ _
              · rw [if_neg hno]
                have hperm := order_moves_perm (G := G) b (noisyMoves G b)
                have hf : ∀ mv ∈ order_moves G b (noisyMoves G b), ∀ a bb : E,
                    a < bb →
                    approxE (qtrue G ev d (G.push b mv) true)
                      (quiescence_search G ev d (G.push b mv) a bb true) a bb :=
                  fun mv _ a bb h => ih (G.push b mv) a bb true h
                have hT : (order_moves G b (noisyMoves G b)).foldl
                    (fun acc mv => min acc (qtrue G ev d (G.push b mv) true))
                    (if fin (ev b) < β then fin (ev b) else β)
                    = min β ((noisyMoves G b).foldl
                        (fun acc mv => min acc (qtrue G ev d (G.push b mv) true))
                        (fin (ev b))) := by
                  rw [foldl_min_perm _ hperm, hmineq, foldl_min_seed_min]
                refine ⟨?_, ?_, ?_⟩
                · intro hva
                  rcases (le_foldl_min_iff _ (noisyMoves G b) _ α).mp hva with h | ⟨w, hw, hwv⟩
                  · exact absurd h hαs
                  · exact qloopMin_some_low hf hαβ' ⟨w, mem_order_moves.mpr hw, hwv⟩
                · intro hβv
                  have hsβ : β ≤ fin (ev b) := hβv.trans (foldl_min_seed_le _ _ _)
                  have hβ' : (if fin (ev b) < β then fin (ev b) else β) = β := by
                    rw [if_neg (not_lt.mpr hsβ)]
                  rw [hβ']
                  have hhigh := (foldl_min_le_iff _ (noisyMoves G b) _ β).mp hβv
                  refine le_of_eq (qloopMin_all_high hf ?_ hαβ).symm
                  intro mv hmv
                  exact hhigh.2 mv (mem_order_moves.mp hmv)
                · intro h1 h2
                  have hTv : (order_moves G b (noisyMoves G b)).foldl
                      (fun acc mv => min acc (qtrue G ev d (G.push b mv) true))
                      (if fin (ev b) < β then fin (ev b) else β)
                      = (noisyMoves G b).foldl
                          (fun acc mv => min acc (qtrue G ev d (G.push b mv) true))
                          (fin (ev b)) := by
                    rw [hT, min_eq_right h2.le]
                  rw [← hTv] at h1 ⊢
                  exact qloopMin_exact hf hαβ' h1

end Search

namespace Search

variable {G : Engine}

/-! Loop lemmas for the fail-soft interior minimax loops (claim C3). -/

theorem mmLoopMax_best_le {f : G.Position → E → E → E} {b : G.Position} :
    ∀ {ms : List G.Move} {best α β : E}, best ≤ mmLoopMax G f b ms best α β
  | [], best, α, β => le_rfl
  | mv :: rest, best, α, β => by
      rw [mmLoopMax]
      split
      · exact le_max_left _ _
      · exact le_trans (le_max_left _ _) mmLoopMax_best_le

theorem mmLoopMin_le_best {f : G.Position → E → E → E} {b : G.Position} :
    ∀ {ms : List G.Move} {best α β : E}, mmLoopMin G f b ms best α β ≤ best
  | [], best, α, β => le_rfl
  | mv :: rest, best, α, β => by
      rw [mmLoopMin]
      split
      · exact min_le_left _ _
      · exact le_trans mmLoopMin_le_best (min_le_left _ _)

theorem mmLoopMax_all_low {f : G.Position → E → E → E} {b : G.Position}
    {cv : G.Move → E} :
    ∀ {ms : List G.Move} {best α β : E},
      (∀ mv ∈ ms, ∀ a bb : E, a < bb → approxE (cv mv) (f (G.push b mv) a bb) a bb) →
      (∀ mv ∈ ms, cv mv ≤ α) → best ≤ α → α < β →
      mmLoopMax G f b ms best α β ≤ α
  | [], best, α, β, _, _, hb, _ => hb
  | mv :: rest, best, α, β, hf, hlow, hb, hαβ => by
      have hs : f (G.push b mv) α β ≤ α :=
        (hf mv (List.mem_cons_self mv rest) α β hαβ).1 (hlow mv (List.mem_cons_self mv rest))
      rw [mmLoopMax]
      rw [max_eq_left hs]
      rw [if_neg (not_le.mpr hαβ)]
      exact mmLoopMax_all_low (fun m hm => hf m (List.mem_cons_of_mem mv hm))
        (fun m hm => hlow m (List.mem_cons_of_mem mv hm)) (max_le hb hs) hαβ

theorem mmLoopMax_some_high {f : G.Position → E → E → E} {b : G.Position}
    {cv : G.Move → E} :
    ∀ {ms : List G.Move} {best α β : E},
      (∀ mv ∈ ms, ∀ a bb : E, a < bb → approxE (cv mv) (f (G.push b mv) a bb) a bb) →
      α < β → (∃ mv ∈ ms, β ≤ cv mv) → β ≤ mmLoopMax G f b ms best α β
  | [], best, α, β, _, _, h => by simp at h
  | mv :: rest, best, α, β, hf, hαβ, hhigh => by
      rw [mmLoopMax]
      by_cases hcut : β ≤ max α (f (G.push b mv) α β)
      · rw [if_pos hcut]
        rcases le_max_iff.mp hcut with h | h
        · exact absurd h (not_le.mpr hαβ)
        · exact h.trans (le_max_right _ _)
      · rw [if_neg hcut]
        rcases hhigh with ⟨w, hw, hwv⟩
        rcases List.mem_cons.mp hw with rfl | hw'
        · exact absurd
            (((hf w (List.mem_cons_self w rest) α β hαβ).2.1 hwv).trans
              (le_max_right α _)) hcut
        · exact mmLoopMax_some_high (fun m hm => hf m (List.mem_cons_of_mem mv hm))
            (lt_of_not_le hcut) ⟨w, hw', hwv⟩

theorem mmLoopMax_exact {f : G.Position → E → E → E} {b : G.Position}
    {cv : G.Move → E} :
    ∀ {ms : List G.Move} {best α β : E},
      (∀ mv ∈ ms, ∀ a bb : E, a < bb → approxE (cv mv) (f (G.push b mv) a bb) a bb) →
      best ≤ α → α < β →
      α < ms.foldl (fun acc mv => max acc (cv mv)) best →
      ms.foldl (fun acc mv => max acc (cv mv)) best < β →
      mmLoopMax G f b ms best α β = ms.foldl (fun acc mv => max acc (cv mv)) best
  | [], best, α, β, _, _, _, _, _ => rfl
  | mv :: rest, best, α, β, hf, hb, hαβ, hαT, hTβ => by
      have hmem := List.mem_cons_self mv rest
      rw [List.foldl_cons] at hαT hTβ ⊢
      have hT0 : (mv :: rest).foldl (fun acc mv => max acc (cv mv)) best
          = rest.foldl (fun acc mv => max acc (cv mv)) (max best (cv mv)) := by
        rw [List.foldl_cons]
      have hcvT : cv mv ≤ rest.foldl (fun acc mv => max acc (cv mv)) (max best (cv mv)) :=
        le_trans (le_max_right best (cv mv)) (foldl_max_seed_le _ rest _)
      have hcvβ : cv mv < β := lt_of_le_of_lt hcvT hTβ
      rw [mmLoopMax]
      rcases le_or_lt (cv mv) α with hle | hgt
      · have hs : f (G.push b mv) α β ≤ α := (hf mv hmem α β hαβ).1 hle
        rw [max_eq_left hs, if_neg (not_le.mpr hαβ)]
        have hsplit : rest.foldl (fun acc mv => max acc (cv mv)) (max best (cv mv))
            = max (cv mv) (rest.foldl (fun acc mv => max acc (cv mv)) best) := by
          rw [max_comm best (cv mv), foldl_max_seed_max]
        have hcvT₀ : cv mv ≤ rest.foldl (fun acc mv => max acc (cv mv)) best := by
          rcases le_or_lt (cv mv) (rest.foldl (fun acc mv => max acc (cv mv)) best)
            with h | h
          · exact h
          · exfalso
            rw [hsplit, max_eq_left h.le] at hαT
            exact absurd hαT (not_lt.mpr hle)
        have hT₀ : rest.foldl (fun acc mv => max acc (cv mv)) (max best (cv mv))
            = rest.foldl (fun acc mv => max acc (cv mv)) best := by
          rw [hsplit]
          exact max_eq_right hcvT₀
        rw [hT₀] at hαT hTβ
        have hT' : rest.foldl (fun acc mv => max acc (cv mv))
              (max best (f (G.push b mv) α β))
            = rest.foldl (fun acc mv => max acc (cv mv)) best := by
          rw [max_comm best, foldl_max_seed_max]
          exact max_eq_right (hs.trans hαT.le)
        rw [hT₀, ← hT']
        exact mmLoopMax_exact (fun m hm => hf m (List.mem_cons_of_mem mv hm))
          (max_le hb hs) hαβ (by rw [hT']; exact hαT) (by rw [hT']; exact hTβ)
      · have hs : f (G.push b mv) α β = cv mv := (hf mv hmem α β hαβ).2.2 hgt hcvβ
        rw [hs]
        rw [max_eq_right (le_trans hb hgt.le)]
        rw [max_eq_right hgt.le]
        rw [if_neg (not_le.mpr hcvβ)]
        have hseed : max best (cv mv) = cv mv := max_eq_right (le_trans hb hgt.le)
        rw [hseed] at hTβ
        rcases lt_or_le (cv mv) (rest.foldl (fun acc mv => max acc (cv mv)) (cv mv))
          with hlt | hge
        · exact mmLoopMax_exact (fun m hm => hf m (List.mem_cons_of_mem mv hm))
            le_rfl hcvβ hlt hTβ
        · have hTeq : rest.foldl (fun acc mv => max acc (cv mv)) (cv mv) = cv mv :=
            le_antisymm hge (foldl_max_seed_le _ rest _)
          rw [hTeq]
          refine le_antisymm ?_ mmLoopMax_best_le
          refine mmLoopMax_all_low (fun m hm => hf m (List.mem_cons_of_mem mv hm))
            ?_ le_rfl hcvβ
          intro m hm
          have := (foldl_max_le_iff cv rest (cv mv) (cv mv)).mp (le_of_eq hTeq)
          exact this.2 m hm

end Search

namespace Search

variable {G : Engine}

theorem mmLoopMin_all_high {f : G.Position → E → E → E} {b : G.Position}
    {cv : G.Move → E} :
    ∀ {ms : List G.Move} {best α β : E},
      (∀ mv ∈ ms, ∀ a bb : E, a < bb → approxE (cv mv) (f (G.push b mv) a bb) a bb) →
      (∀ mv ∈ ms, β ≤ cv mv) → β ≤ best → α < β →
      β ≤ mmLoopMin G f b ms best α β
  | [], best, α, β, _, _, hb, _ => hb
  | mv :: rest, best, α, β, hf, hhigh, hb, hαβ => by
      have hs : β ≤ f (G.push b mv) α β :=
        (hf mv (List.mem_cons_self mv rest) α β hαβ).2.1 (hhigh mv (List.mem_cons_self mv rest))
      rw [mmLoopMin]
      rw [min_eq_left hs]
      rw [if_neg (not_le.mpr hαβ)]
      exact mmLoopMin_all_high (fun m hm => hf m (List.mem_cons_of_mem mv hm))
        (fun m hm => hhigh m (List.mem_cons_of_mem mv hm)) (le_min hb hs) hαβ

theorem mmLoopMin_some_low {f : G.Position → E → E → E} {b : G.Position}
    {cv : G.Move → E} :
    ∀ {ms : List G.Move} {best α β : E},
      (∀ mv ∈ ms, ∀ a bb : E, a < bb → approxE (cv mv) (f (G.push b mv) a bb) a bb) →
      α < β → (∃ mv ∈ ms, cv mv ≤ α) → mmLoopMin G f b ms best α β ≤ α
  | [], best, α, β, _, _, h => by simp at h
  | mv :: rest, best, α, β, hf, hαβ, hlow => by
      rw [mmLoopMin]
      by_cases hcut : min β (f (G.push b mv) α β) ≤ α
      · rw [if_pos hcut]
        rcases min_le_iff.mp hcut with h | h
        · exact absurd h (not_le.mpr hαβ)
        · exact (min_le_right _ _).trans h
      · rw [if_neg hcut]
        rcases hlow with ⟨w, hw, hwv⟩
        rcases List.mem_cons.mp hw with rfl | hw'
        · exact absurd
            ((min_le_right β _).trans
              ((hf w (List.mem_cons_self w rest) α β hαβ).1 hwv)) hcut
        · exact mmLoopMin_some_low (fun m hm => hf m (List.mem_cons_of_mem mv hm))
            (lt_of_not_le hcut) ⟨w, hw', hwv⟩

theorem mmLoopMin_exact {f : G.Position → E → E → E} {b : G.Position}
    {cv : G.Move → E} :
    ∀ {ms : List G.Move} {best α β : E},
      (∀ mv ∈ ms, ∀ a bb : E, a < bb → approxE (cv mv) (f (G.push b mv) a bb) a bb) →
      β ≤ best → α < β →
      α < ms.foldl (fun acc mv => min acc (cv mv)) best →
      ms.foldl (fun acc mv => min acc (cv mv)) best < β →
      mmLoopMin G f b ms best α β = ms.foldl (fun acc mv => min acc (cv mv)) best
  | [], best, α, β, _, _, _, _, _ => rfl
  | mv :: rest, best, α, β, hf, hb, hαβ, hαT, hTβ => by
      have hmem := List.mem_cons_self mv rest
      rw [List.foldl_cons] at hαT hTβ ⊢
      have hTcv : rest.foldl (fun acc mv => min acc (cv mv)) (min best (cv mv)) ≤ cv mv :=
        le_trans (foldl_min_seed_le _ rest _) (min_le_right best (cv mv))
      have hcvα : α < cv mv := lt_of_lt_of_le hαT hTcv
      rw [mmLoopMin]
      rcases le_or_lt β (cv mv) with hge | hlt
      · have hs : β ≤ f (G.push b mv) α β := (hf mv hmem α β hαβ).2.1 hge
        rw [min_eq_left hs, if_neg (not_le.mpr hαβ)]
        have hsplit : rest.foldl (fun acc mv => min acc (cv mv)) (min best (cv mv))
            = min (cv mv) (rest.foldl (fun acc mv => min acc (cv mv)) best) := by
          rw [min_comm best (cv mv), foldl_min_seed_min]
        have hcvT₀ : rest.foldl (fun acc mv => min acc (cv mv)) best ≤ cv mv := by
          rcases le_or_lt (rest.foldl (fun acc mv => min acc (cv mv)) best) (cv mv)
            with h | h
          · exact h
          · exfalso
            rw [hsplit, min_eq_left h.le] at hTβ
            exact absurd hTβ (not_lt.mpr hge)
        have hT₀ : rest.foldl (fun acc mv => min acc (cv mv)) (min best (cv mv))
            = rest.foldl (fun acc mv => min acc (cv mv)) best := by
          rw [hsplit]
          exact min_eq_right hcvT₀
        rw [hT₀] at hαT hTβ
        have hT' : rest.foldl (fun acc mv => min acc (cv mv))
              (min best (f (G.push b mv) α β))
            = rest.foldl (fun acc mv => min acc (cv mv)) best := by
          rw [min_comm best, foldl_min_seed_min]
          exact min_eq_right (hTβ.le.trans hs)
        rw [hT₀, ← hT']
        exact mmLoopMin_exact (fun m hm => hf m (List.mem_cons_of_mem mv hm))
          (le_min hb hs) hαβ (by rw [hT']; exact hαT) (by rw [hT']; exact hTβ)
      · have hs : f (G.push b mv) α β = cv mv := (hf mv hmem α β hαβ).2.2 hcvα hlt
        rw [hs]
        rw [min_eq_right (hlt.le.trans hb)]
        rw [min_eq_right hlt.le]
        rw [if_neg (not_le.mpr hcvα)]
        have hseed : min best (cv mv) = cv mv := min_eq_right (hlt.le.trans hb)
        rw [hseed] at hαT
        rcases lt_or_le α (rest.foldl (fun acc mv => min acc (cv mv)) (cv mv))
          with hlt2 | _
        · rcases lt_or_le (rest.foldl (fun acc mv => min acc (cv mv)) (cv mv)) (cv mv)
            with h | hge2
          · exact mmLoopMin_exact (fun m hm => hf m (List.mem_cons_of_mem mv hm))
              le_rfl hcvα hlt2 h
          · have hTeq : rest.foldl (fun acc mv => min acc (cv mv)) (cv mv) = cv mv :=
              le_antisymm (foldl_min_seed_le _ rest _) hge2
            rw [hTeq]
            refine le_antisymm mmLoopMin_le_best ?_
            refine mmLoopMin_all_high (fun m hm => hf m (List.mem_cons_of_mem mv hm))
              ?_ le_rfl hcvα
            intro m hm
            have := (foldl_min_le_iff cv rest (cv mv) (cv mv)).mp (le_of_eq hTeq.symm)
            exact this.2 m hm
        · exact absurd hαT (not_lt.mpr (by assumption))

end Search

namespace Search

variable {G : Engine}

/-- Knuth-Moore soundness of the alpha-beta `minimax` against the unpruned
full traversal `minimax_full`, at every valid window. -/
theorem minimax_approx (ev : G.Position → Int) (depth : Nat) :
    ∀ (b : G.Position) (α β : E) (m : Bool), α < β →
      approxE (minimax_full G ev depth b m) (minimax G ev depth b α β m) α β := by
  induction depth with
  | zero =>
      intro b α β m hαβ
      rw [minimax, minimax_full]
      by_cases hgo : G.is_game_over b
      · rw [if_pos hgo, if_pos hgo]
        exact approxE_refl _ _ _
      · rw [if_neg hgo, if_neg hgo]
        exact quiescence_approx ev 10 b α β m hαβ
  | succ depth ih =>
      intro b α β m hαβ
      rw [minimax, minimax_full]
      by_cases hgo : G.is_game_over b
      · rw [if_pos hgo, if_pos hgo]
        exact approxE_refl _ _ _
      · rw [if_neg hgo, if_neg hgo]
        by_cases hleg : (G.legal_moves b).isEmpty
        · rw [if_pos hleg, if_pos hleg]
          exact approxE_refl _ _ _
        · rw [if_neg hleg, if_neg hleg]
          have hperm := order_moves_perm (G := G) b (G.legal_moves b)
          cases m with
          | true =>
              rw [if_pos rfl, if_pos rfl]
              have hf : ∀ mv ∈ order_moves G b (G.legal_moves b), ∀ a bb : E,
                  a < bb →
                  approxE (minimax_full G ev depth (G.push b mv) false)
                    (minimax G ev depth (G.push b mv) a bb false) a bb :=
                fun mv _ a bb h => ih (G.push b mv) a bb false h
              have hTperm : (order_moves G b (G.legal_moves b)).foldl
                  (fun acc mv => max acc (minimax_full G ev depth (G.push b mv) false)) ⊥
                  = (G.legal_moves b).foldl
                      (fun acc mv => max acc (minimax_full G ev depth (G.push b mv) false)) ⊥ :=
                foldl_max_perm _ hperm ⊥
              refine ⟨?_, ?_, ?_⟩
              · intro hva
                have hlow := (foldl_max_le_iff _ (G.legal_moves b) _ α).mp hva
                exact mmLoopMax_all_low hf
                  (fun mv hmv => hlow.2 mv (mem_order_moves.mp hmv)) bot_le hαβ
              · intro hβv
                rcases (le_foldl_max_iff _ (G.legal_moves b) _ β).mp hβv with h | ⟨w, hw, hwv⟩
                · exact absurd (lt_of_lt_of_le hαβ h) not_lt_bot
                · exact mmLoopMax_some_high hf hαβ ⟨w, mem_order_moves.mpr hw, hwv⟩
              · intro h1 h2
                rw [← hTperm] at h1 h2 ⊢
                exact mmLoopMax_exact hf bot_le hαβ h1 h2
          | false =>
              rw [if_neg Bool.false_ne_true, if_neg Bool.false_ne_true]
              have hf : ∀ mv ∈ order_moves G b (G.legal_moves b), ∀ a bb : E,
                  a < bb →
                  approxE (minimax_full G ev depth (G.push b mv) true)
                    (minimax G ev depth (G.push b mv) a bb true) a bb :=
                fun mv _ a bb h => ih (G.push b mv) a bb true h
              have hTperm : (order_moves G b (G.legal_moves b)).foldl
                  (fun acc mv => min acc (minimax_full G ev depth (G.push b mv) true)) ⊤
                  = (G.legal_moves b).foldl
                      (fun acc mv => min acc (minimax_full G ev depth (G.push b mv) true)) ⊤ :=
                foldl_min_perm _ hperm ⊤
              refine ⟨?_, ?_, ?_⟩
              · intro hva
                rcases (le_foldl_min_iff _ (G.legal_moves b) _ α).mp hva with h | ⟨w, hw, hwv⟩
                · exact absurd (lt_of_le_of_lt h hαβ) not_top_lt
                · exact mmLoopMin_some_low hf hαβ ⟨w, mem_order_moves.mpr hw, hwv⟩
              · intro hβv
                have hhigh := (foldl_min_le_iff _ (G.legal_moves b) _ β).mp hβv
                exact mmLoopMin_all_high hf
                  (fun mv hmv => hhigh.2 mv (mem_order_moves.mp hmv)) le_top hαβ
              · intro h1 h2
                rw [← hTperm] at h1 h2 ⊢
                exact mmLoopMin_exact hf le_top hαβ h1 h2

end Search

namespace Search

/-- Claim C3: for every rules engine, evaluator, position, search depth and
side to move, the alpha-beta-pruned `minimax` (with its move ordering and its
quiescence leaves), run at the full window as `best_move_minimax` runs it,
returns exactly the value of `minimax_full`, the unpruned and unordered full
minimax traversal of the same position and depth.  Move ordering and pruning
change only efficiency, never the returned score. -/
theorem C3_alphabeta_value_equals_full_minimax (G : Engine)
    (ev : G.Position → Int) (depth : Nat) (b : G.Position) (m : Bool) :
    minimax G ev depth b ⊥ ⊤ m = minimax_full G ev depth b m := by
  have h := minimax_approx ev depth b ⊥ ⊤ m bot_lt_top
  rcases le_or_lt (minimax_full G ev depth b m) ⊥ with hv | hv
  · rw [le_bot_iff.mp (h.1 hv), le_bot_iff.mp hv]
  · rcases le_or_lt ⊤ (minimax_full G ev depth b m) with hv2 | hv2
    · rw [top_le_iff.mp (h.2.1 hv2), top_le_iff.mp hv2]
    · exact h.2.2 hv hv2

end Search

namespace Search

variable {G : Engine}

/-! ## Claim C4: fail-soft interior minimax vs fail-hard quiescence -/

theorem qloopMax_le_beta {f : G.Position → E → E → E} {b : G.Position} :
    ∀ {ms : List G.Move} {α β : E}, α < β → qloopMax G f b ms α β ≤ β
  | [], α, β, h => h.le
  | mv :: rest, α, β, h => by
      rw [qloopMax]
      by_cases hc : β ≤ f (G.push b mv) α β
      · rw [if_pos hc]
      · rw [if_neg hc]
        refine qloopMax_le_beta ?_
        split
        · exact lt_of_not_le hc
        · exact h

theorem qloopMin_alpha_le {f : G.Position → E → E → E} {b : G.Position} :
    ∀ {ms : List G.Move} {α β : E}, α < β → α ≤ qloopMin G f b ms α β
  | [], α, β, h => h.le
  | mv :: rest, α, β, h => by
      rw [qloopMin]
      by_cases hc : f (G.push b mv) α β ≤ α
      · rw [if_pos hc]
      · rw [if_neg hc]
        refine qloopMin_alpha_le ?_
        split
        · exact lt_of_not_le hc
        · exact h

/-- A maximizing quiescence node (with nonzero depth budget, on a live
position) never returns above `beta`: its cutoffs are fail-hard. -/
theorem quiescence_max_le_beta (ev : G.Position → Int) (d : Nat)
    (b : G.Position) (α β : E) (hgo : G.is_game_over b = false) (hαβ : α < β) :
    quiescence_search G ev (d + 1) b α β true ≤ β := by
  rw [quiescence_search, hgo, if_neg Bool.false_ne_true, if_pos rfl]
  by_cases hβs : β ≤ fin (ev b)
  · rw [if_pos hβs]
  · rw [if_neg hβs]
    by_cases hno : (noisyMoves G b).isEmpty
    · rw [if_pos hno]
      exact (lt_of_not_le hβs).le
    · rw [if_neg hno]
      refine qloopMax_le_beta ?_
      split
      · exact lt_of_not_le hβs
      · exact hαβ

/-- A minimizing quiescence node never returns below `alpha`. -/
theorem quiescence_min_alpha_le (ev : G.Position → Int) (d : Nat)
    (b : G.Position) (α β : E) (hgo : G.is_game_over b = false) (hαβ : α < β) :
    α ≤ quiescence_search G ev (d + 1) b α β false := by
  rw [quiescence_search, hgo, if_neg Bool.false_ne_true,
    if_neg Bool.false_ne_true]
  by_cases hαs : fin (ev b) ≤ α
  · rw [if_pos hαs]
  · rw [if_neg hαs]
    by_cases hno : (noisyMoves G b).isEmpty
    · rw [if_pos hno]
      exact (lt_of_not_le hαs).le
    · rw [if_neg hno]
      refine qloopMin_alpha_le ?_
      split
      · exact lt_of_not_le hαs
      · exact hαβ

/-- On a beta cutoff (true quiescence value at or above `beta`) the
maximizing quiescence search returns exactly `beta`. -/
theorem quiescence_max_cutoff (ev : G.Position → Int) (d : Nat)
    (b : G.Position) (α β : E) (hgo : G.is_game_over b = false) (hαβ : α < β)
    (hq : β ≤ qtrue G ev (d + 1) b true) :
    quiescence_search G ev (d + 1) b α β true = β :=
  le_antisymm (quiescence_max_le_beta ev d b α β hgo hαβ)
    ((quiescence_approx ev (d + 1) b α β true hαβ).2.1 hq)

/-- On an alpha cutoff the minimizing quiescence search returns exactly
`alpha`. -/
theorem quiescence_min_cutoff (ev : G.Position → Int) (d : Nat)
    (b : G.Position) (α β : E) (hgo : G.is_game_over b = false) (hαβ : α < β)
    (hq : qtrue G ev (d + 1) b false ≤ α) :
    quiescence_search G ev (d + 1) b α β false = α :=
  le_antisymm ((quiescence_approx ev (d + 1) b α β false hαβ).1 hq)
    (quiescence_min_alpha_le ev d b α β hgo hαβ)

/-- A tiny concrete rules engine used to witness fail-soft behaviour of the
interior minimax: position 0 (to move) has the two moves 1 and 2 leading to
terminal positions worth 5 and 3 centipawns. -/
def FSGame : Engine where
  Position := Nat
  Move := Nat
  legal_moves := fun p => if p = 0 then [1, 2] else []
  push := fun _ m => m
  turn := fun _ => true
  is_game_over := fun p => p != 0
  is_checkmate := fun _ => false
  is_check := fun _ => false
  is_capture := fun _ _ => false
  promotion := fun _ => false
  to_square := fun _ => 0
  from_square := fun _ => 0
  piece_at := fun _ _ => none

/-- Evaluator for `FSGame`. -/
def FSev : Nat → Int := fun p => if p = 1 then 5 else 3

unseal List.merge List.mergeSort in
/-- Claim C4: interior `minimax` nodes are fail-soft while
`quiescence_search` is fail-hard at its cutoffs.
General part (all engines): a maximizing quiescence node with `α < β` never
returns above `β` and returns exactly `β` whenever the true (window-free)
quiescence value is at or above `β`; dually a minimizing node never returns
below `α` and returns exactly `α` on an alpha cutoff — quiescence clips its
result to the window.  Concrete part: an interior maximizing `minimax` node
of `FSGame` searched with window `(0, 1)` returns `5` — the actual best
child value, strictly outside the window (and equal to the unpruned full
value); a minimizing node with window `(4, 10)` likewise returns the true
value `3`, below `α`.  So interior minimax is fail-soft, quiescence is
fail-hard. -/
theorem C4_fail_soft_minimax_fail_hard_quiescence :
    (∀ (G : Engine) (ev : G.Position → Int) (d : Nat) (b : G.Position) (α β : E),
        G.is_game_over b = false → α < β →
        quiescence_search G ev (d + 1) b α β true ≤ β ∧
        α ≤ quiescence_search G ev (d + 1) b α β false) ∧
    (∀ (G : Engine) (ev : G.Position → Int) (d : Nat) (b : G.Position) (α β : E),
        G.is_game_over b = false → α < β →
        (β ≤ qtrue G ev (d + 1) b true →
          quiescence_search G ev (d + 1) b α β true = β) ∧
        (qtrue G ev (d + 1) b false ≤ α →
          quiescence_search G ev (d + 1) b α β false = α)) ∧
    minimax FSGame FSev 1 (0 : Nat) (fin 0) (fin 1) true = fin 5 ∧
    fin 1 < fin 5 ∧
    minimax_full FSGame FSev 1 (0 : Nat) true = fin 5 ∧
    minimax FSGame FSev 1 (0 : Nat) (fin 4) (fin 10) false = fin 3 ∧
    fin 3 < fin 4 ∧
    minimax_full FSGame FSev 1 (0 : Nat) false = fin 3 := by
  refine ⟨?_, ?_, ?_, ?_, ?_, ?_, ?_, ?_⟩
  · intro G ev d b α β hgo hαβ
    exact ⟨quiescence_max_le_beta ev d b α β hgo hαβ,
      quiescence_min_alpha_le ev d b α β hgo hαβ⟩
  · intro G ev d b α β hgo hαβ
    exact ⟨quiescence_max_cutoff ev d b α β hgo hαβ,
      quiescence_min_cutoff ev d b α β hgo hαβ⟩
  · rfl
  · decide
  · rfl
  · rfl
  · decide
  · rfl

end Search

namespace Search

variable {G : Engine}

/-! ## Search values are never the infinities (used by claims C2 and C7) -/

theorem fin_ne_bot (v : Int) : fin v ≠ ⊥ := WithBot.coe_ne_bot

theorem fin_ne_top (v : Int) : fin v ≠ ⊤ := by
  intro h
  exact WithTop.coe_ne_top (WithBot.coe_injective h)

theorem qloopMaxNB {f : G.Position → E → E → E} {b : G.Position} :
    ∀ {ms : List G.Move} {α β : E},
      (∀ mv ∈ ms, ∀ a bb : E, a ≠ ⊤ → bb ≠ ⊥ →
        f (G.push b mv) a bb ≠ ⊥ ∧ f (G.push b mv) a bb ≠ ⊤) →
      α ≠ ⊤ → α ≠ ⊥ → β ≠ ⊥ →
      qloopMax G f b ms α β ≠ ⊥ ∧ qloopMax G f b ms α β ≠ ⊤
  | [], α, β, _, hαt, hαb, _ => ⟨hαb, hαt⟩
  | mv :: rest, α, β, hch, hαt, hαb, hβb => by
      have hs := hch mv (List.mem_cons_self mv rest) α β hαt hβb
      rw [qloopMax]
      by_cases hc : β ≤ f (G.push b mv) α β
      · rw [if_pos hc]
        refine ⟨hβb, ?_⟩
        intro hβt
        exact hs.2 (top_le_iff.mp (hβt.symm.trans_le hc))
      · rw [if_neg hc]
        refine qloopMaxNB (fun m hm => hch m (List.mem_cons_of_mem mv hm)) ?_ ?_ hβb
        · split
          · exact hs.2
          · exact hαt
        · split
          · exact hs.1
          · exact hαb

theorem qloopMinNB {f : G.Position → E → E → E} {b : G.Position} :
    ∀ {ms : List G.Move} {α β : E},
      (∀ mv ∈ ms, ∀ a bb : E, a ≠ ⊤ → bb ≠ ⊥ →
        f (G.push b mv) a bb ≠ ⊥ ∧ f (G.push b mv) a bb ≠ ⊤) →
      β ≠ ⊥ → β ≠ ⊤ → α ≠ ⊤ →
      qloopMin G f b ms α β ≠ ⊥ ∧ qloopMin G f b ms α β ≠ ⊤
  | [], α, β, _, hβb, hβt, _ => ⟨hβb, hβt⟩
  | mv :: rest, α, β, hch, hβb, hβt, hαt => by
      have hs := hch mv (List.mem_cons_self mv rest) α β hαt hβb
      rw [qloopMin]
      by_cases hc : f (G.push b mv) α β ≤ α
      · rw [if_pos hc]
        refine ⟨?_, hαt⟩
        intro hαb
        exact hs.1 (le_bot_iff.mp (hc.trans_eq hαb))
      · rw [if_neg hc]
        refine qloopMinNB (fun m hm => hch m (List.mem_cons_of_mem mv hm)) ?_ ?_ hαt
        · split
          · exact hs.1
          · exact hβb
        · split
          · exact hs.2
          · exact hβt

/-- With a window that is not degenerate at the infinities, quiescence never
returns an infinity. -/
theorem quiescenceNB (ev : G.Position → Int) (d : Nat) :
    ∀ (b : G.Position) (α β : E) (m : Bool), α ≠ ⊤ → β ≠ ⊥ →
      quiescence_search G ev d b α β m ≠ ⊥ ∧
      quiescence_search G ev d b α β m ≠ ⊤ := by
  induction d with
  | zero =>
      intro b α β m _ _
      rw [quiescence_search]
      split <;> exact ⟨fin_ne_bot _, fin_ne_top _⟩
  | succ d ih =>
      intro b α β m hαt hβb
      rw [quiescence_search]
      by_cases hgo : G.is_game_over b
      · rw [if_pos hgo]
        exact ⟨fin_ne_bot _, fin_ne_top _⟩
      · rw [if_neg hgo]
        cases m with
        | true =>
            rw [if_pos rfl]
            by_cases hβs : β ≤ fin (ev b)
            · rw [if_pos hβs]
              refine ⟨hβb, ?_⟩
              intro hβt
              rw [hβt] at hβs
              exact fin_ne_top (ev b) (top_le_iff.mp hβs)
            · rw [if_neg hβs]
              by_cases hno : (noisyMoves G b).isEmpty
              · rw [if_pos hno]
                exact ⟨fin_ne_bot _, fin_ne_top _⟩
              · rw [if_neg hno]
                refine qloopMaxNB
                  (fun m _ a bb ha hb => ih (G.push b m) a bb false ha hb) ?_ ?_ hβb
                · split
                  · exact fin_ne_top _
                  · exact hαt
                · split
                  · exact fin_ne_bot _
                  · next h =>
                      intro hab
                      rw [hab] at h
                      exact h (WithBot.bot_lt_coe _)
        | false =>
            rw [if_neg Bool.false_ne_true]
            by_cases hαs : fin (ev b) ≤ α
            · rw [if_pos hαs]
              refine ⟨?_, hαt⟩
              intro hαb
              rw [hαb] at hαs
              exact fin_ne_bot (ev b) (le_bot_iff.mp hαs)
            · rw [if_neg hαs]
              by_cases hno : (noisyMoves G b).isEmpty
              · rw [if_pos hno]
                exact ⟨fin_ne_bot _, fin_ne_top _⟩
              · rw [if_neg hno]
                refine qloopMinNB
                  (fun m _ a bb ha hb => ih (G.push b m) a bb true ha hb) ?_ ?_ hαt
                · split
                  · exact fin_ne_bot _
                  · exact hβb
                · split
                  · exact fin_ne_top _
                  · next h =>
                      intro ht
                      rw [ht] at h
                      exact h (lt_top_iff_ne_top.mpr (fin_ne_top _))

end Search

namespace Search

variable {G : Engine}

theorem mmLoopMaxNB {f : G.Position → E → E → E} {b : G.Position} :
    ∀ {ms : List G.Move} {best α β : E},
      (∀ mv ∈ ms, ∀ a bb : E, a ≠ ⊤ → bb ≠ ⊥ →
        f (G.push b mv) a bb ≠ ⊥ ∧ f (G.push b mv) a bb ≠ ⊤) →
      α ≠ ⊤ → β ≠ ⊥ → best ≠ ⊤ → (best ≠ ⊥ ∨ ms ≠ []) →
      mmLoopMax G f b ms best α β ≠ ⊥ ∧ mmLoopMax G f b ms best α β ≠ ⊤
  | [], best, α, β, _, _, _, hbt, hd => by
      rcases hd with hbb | hne
      · exact ⟨hbb, hbt⟩
      · exact absurd rfl hne
  | mv :: rest, best, α, β, hch, hαt, hβb, hbt, _ => by
      have hs := hch mv (List.mem_cons_self mv rest) α β hαt hβb
      have hbest' : max best (f (G.push b mv) α β) ≠ ⊥ := by
        intro h
        exact hs.1 (max_eq_bot.mp h).2
      have hbest't : max best (f (G.push b mv) α β) ≠ ⊤ := by
        intro h
        rcases max_eq_top.mp h with h | h
        · exact hbt h
        · exact hs.2 h
      rw [mmLoopMax]
      by_cases hc : β ≤ max α (f (G.push b mv) α β)
      · rw [if_pos hc]
        exact ⟨hbest', hbest't⟩
      · rw [if_neg hc]
        refine mmLoopMaxNB (fun m hm => hch m (List.mem_cons_of_mem mv hm))
          ?_ hβb hbest't (Or.inl hbest')
        intro h
        rcases max_eq_top.mp h with h | h
        · exact hαt h
        · exact hs.2 h

theorem mmLoopMinNB {f : G.Position → E → E → E} {b : G.Position} :
    ∀ {ms : List G.Move} {best α β : E},
      (∀ mv ∈ ms, ∀ a bb : E, a ≠ ⊤ → bb ≠ ⊥ →
        f (G.push b mv) a bb ≠ ⊥ ∧ f (G.push b mv) a bb ≠ ⊤) →
      α ≠ ⊤ → β ≠ ⊥ → best ≠ ⊥ → (best ≠ ⊤ ∨ ms ≠ []) →
      mmLoopMin G f b ms best α β ≠ ⊥ ∧ mmLoopMin G f b ms best α β ≠ ⊤
  | [], best, α, β, _, _, _, hbb, hd => by
      rcases hd with hbt | hne
      · exact ⟨hbb, hbt⟩
      · exact absurd rfl hne
  | mv :: rest, best, α, β, hch, hαt, hβb, hbb, _ => by
      have hs := hch mv (List.mem_cons_self mv rest) α β hαt hβb
      have hbest' : min best (f (G.push b mv) α β) ≠ ⊤ := by
        intro h
        exact hs.2 (min_eq_top.mp h).2
      have hbest'b : min best (f (G.push b mv) α β) ≠ ⊥ := by
        intro h
        rcases min_eq_bot.mp h with h | h
        · exact hbb h
        · exact hs.1 h
      rw [mmLoopMin]
      by_cases hc : min β (f (G.push b mv) α β) ≤ α
      · rw [if_pos hc]
        exact ⟨hbest'b, hbest'⟩
      · rw [if_neg hc]
        refine mmLoopMinNB (fun m hm => hch m (List.mem_cons_of_mem mv hm))
          hαt ?_ hbest'b (Or.inl hbest')
        intro h
        rcases min_eq_bot.mp h with h | h
        · exact hβb h
        · exact hs.1 h

/-- With a window that is not degenerate at the infinities, `minimax` never
returns an infinity (there is always a real evaluation behind the result). -/
theorem minimaxNB (ev : G.Position → Int) (depth : Nat) :
    ∀ (b : G.Position) (α β : E) (m : Bool), α ≠ ⊤ → β ≠ ⊥ →
      minimax G ev depth b α β m ≠ ⊥ ∧ minimax G ev depth b α β m ≠ ⊤ := by
  induction depth with
  | zero =>
      intro b α β m hαt hβb
      rw [minimax]
      by_cases hgo : G.is_game_over b
      · rw [if_pos hgo]
        exact ⟨fin_ne_bot _, fin_ne_top _⟩
      · rw [if_neg hgo]
        exact quiescenceNB ev 10 b α β m hαt hβb
  | succ depth ih =>
      intro b α β m hαt hβb
      rw [minimax]
      by_cases hgo : G.is_game_over b
      · rw [if_pos hgo]
        exact ⟨fin_ne_bot _, fin_ne_top _⟩
      · rw [if_neg hgo]
        by_cases hleg : (G.legal_moves b).isEmpty
        · rw [if_pos hleg]
          exact ⟨fin_ne_bot _, fin_ne_top _⟩
        · rw [if_neg hleg]
          have hne : order_moves G b (G.legal_moves b) ≠ [] := by
            intro hh
            have hp := order_moves_perm (G := G) b (G.legal_moves b)
            rw [hh] at hp
            rw [List.isEmpty_iff] at hleg
            exact hleg hp.symm.eq_nil
          cases m with
          | true =>
              rw [if_pos rfl]
              exact mmLoopMaxNB
                (fun m _ a bb ha hb => ih (G.push b m) a bb false ha hb)
                hαt hβb bot_ne_top (Or.inr hne)
          | false =>
              rw [if_neg Bool.false_ne_true]
              exact mmLoopMinNB
                (fun m _ a bb ha hb => ih (G.push b m) a bb true ha hb)
                hαt hβb top_ne_bot (Or.inr hne)

/-- The root loop either keeps the incoming candidate or returns a move from
its list. -/
theorem bmLoop_result (ev : G.Position → Int) (d : Nat) (b : G.Position) :
    ∀ (ms : List G.Move) (cur : Option G.Move) (bs α β : E),
      bmLoop G ev d b ms cur bs α β = cur ∨
      ∃ m ∈ ms, bmLoop G ev d b ms cur bs α β = some m
  | [], cur, bs, α, β => Or.inl rfl
  | mv :: rest, cur, bs, α, β => by
      rw [bmLoop]
      by_cases ht : G.turn (G.push b mv) = false
      · rw [if_pos ht]
        by_cases hcmp : bs < minimax G ev d (G.push b mv) α β false
        · rw [if_pos hcmp]
          rcases bmLoop_result ev d b rest (some mv) _ _ _ with h | ⟨m, hm, h⟩
          · exact Or.inr ⟨mv, List.mem_cons_self mv rest, h⟩
          · exact Or.inr ⟨m, List.mem_cons_of_mem mv hm, h⟩
        · rw [if_neg hcmp]
          rcases bmLoop_result ev d b rest cur _ _ _ with h | ⟨m, hm, h⟩
          · exact Or.inl h
          · exact Or.inr ⟨m, List.mem_cons_of_mem mv hm, h⟩
      · rw [if_neg ht]
        by_cases hcmp : minimax G ev d (G.push b mv) α β true < bs
        · rw [if_pos hcmp]
          rcases bmLoop_result ev d b rest (some mv) _ _ _ with h | ⟨m, hm, h⟩
          · exact Or.inr ⟨mv, List.mem_cons_self mv rest, h⟩
          · exact Or.inr ⟨m, List.mem_cons_of_mem mv hm, h⟩
        · rw [if_neg hcmp]
          rcases bmLoop_result ev d b rest cur _ _ _ with h | ⟨m, hm, h⟩
          · exact Or.inl h
          · exact Or.inr ⟨m, List.mem_cons_of_mem mv hm, h⟩

/-- `best_move_minimax` returns the no-move signal exactly on positions with
no legal moves, and a legal move otherwise (assuming the rules-engine
property that pushing a move flips the side to move). -/
theorem best_move_minimax_total (ev : G.Position → Int) (b : G.Position)
    (depth : Nat)
    (hturn : ∀ (p : G.Position) (mv : G.Move), G.turn (G.push p mv) = !G.turn p) :
    (G.legal_moves b = [] → best_move_minimax G ev b depth = none) ∧
    (G.legal_moves b ≠ [] →
      ∃ m ∈ G.legal_moves b, best_move_minimax G ev b depth = some m) := by
  constructor
  · intro h
    simp [best_move_minimax, h]
  · intro h
    obtain ⟨a, as, hlegal⟩ := List.exists_cons_of_ne_nil h
    cases as with
    | nil =>
        refine ⟨a, by rw [hlegal]; exact List.mem_cons_self a [], ?_⟩
        simp [best_move_minimax, hlegal]
    | cons a2 as2 =>
        have hperm := order_moves_perm (G := G) b (a :: a2 :: as2)
        have hordne : order_moves G b (a :: a2 :: as2) ≠ [] := by
          intro hh
          rw [hh] at hperm
          exact List.cons_ne_nil a (a2 :: as2) hperm.symm.eq_nil
        obtain ⟨m₀, tl, hord⟩ := List.exists_cons_of_ne_nil hordne
        have hmem₀ : m₀ ∈ a :: a2 :: as2 := by
          refine hperm.mem_iff.mp ?_
          rw [hord]
          exact List.mem_cons_self m₀ tl
        have hstep : ∀ m, m ∈ m₀ :: tl → m ∈ a :: a2 :: as2 := by
          intro m hm
          refine hperm.mem_iff.mp ?_
          rw [hord]
          exact hm
        rw [best_move_minimax]
        rw [hlegal]
        simp only
        rw [hord]
        by_cases hwb : G.turn b
        · rw [if_pos hwb]
          rw [bmLoop]
          have ht0 : G.turn (G.push b m₀) = false := by
            rw [hturn, hwb]
            rfl
          rw [if_pos ht0]
          have hsb : (⊥ : E) < minimax G ev (depth - 1) (G.push b m₀) ⊥ ⊤ false :=
            bot_lt_iff_ne_bot.mpr
              ((minimaxNB ev (depth - 1) (G.push b m₀) ⊥ ⊤ false bot_ne_top
                top_ne_bot).1)
          rw [if_pos hsb]
          rcases bmLoop_result ev (depth - 1) b tl (some m₀) _ _ _ with hres | ⟨m, hm, hres⟩
          · exact ⟨m₀, hmem₀, hres⟩
          · exact ⟨m, hstep m (List.mem_cons_of_mem m₀ hm), hres⟩
        · rw [Bool.not_eq_true] at hwb
          rw [if_neg (by rw [hwb]; exact Bool.false_ne_true)]
          rw [bmLoop]
          have ht0 : G.turn (G.push b m₀) = true := by
            rw [hturn, hwb]
            rfl
          rw [if_neg (by rw [ht0]; exact Ne.symm Bool.false_ne_true)]
          have hst : minimax G ev (depth - 1) (G.push b m₀) ⊥ ⊤ true < (⊤ : E) :=
            lt_top_iff_ne_top.mpr
              ((minimaxNB ev (depth - 1) (G.push b m₀) ⊥ ⊤ true bot_ne_top
                top_ne_bot).2)
          rw [if_pos hst]
          rcases bmLoop_result ev (depth - 1) b tl (some m₀) _ _ _ with hres | ⟨m, hm, hres⟩
          · exact ⟨m₀, hmem₀, hres⟩
          · exact ⟨m, hstep m (List.mem_cons_of_mem m₀ hm), hres⟩

end Search

namespace Search

/-- A one-legal-move rules engine used to witness claim C7: position 0 has
the single legal move 7; every other position has none. -/
def OneMoveGame : Engine where
  Position := Nat
  Move := Nat
  legal_moves := fun p => if p = 0 then [7] else []
  push := fun _ m => m
  turn := fun p => p == 0
  is_game_over := fun p => p != 0
  is_checkmate := fun _ => false
  is_check := fun _ => false
  is_capture := fun _ _ => false
  promotion := fun _ => false
  to_square := fun _ => 0
  from_square := fun _ => 0
  piece_at := fun _ _ => none

/-- Claim C7: `best_move_minimax` returns the no-move signal when there are
zero legal moves, and on every position with exactly one legal move it
returns that sole move at every depth ≥ 1 without invoking the recursive
search: the result is the head of the legal-move list, computed before any
call to `minimax`, so it is independent of both the depth and the evaluator
(replacing either changes nothing). -/
theorem C7_single_legal_move_returned_immediately (G : Engine)
    (ev ev' : G.Position → Int) (b : G.Position) (d d' : Nat) :
    (G.legal_moves b = [] → best_move_minimax G ev b d = none) ∧
    (∀ mv : G.Move, G.legal_moves b = [mv] → 1 ≤ d →
      best_move_minimax G ev b d = some mv ∧
      best_move_minimax G ev b d = best_move_minimax G ev' b d') := by
  constructor
  · intro h
    simp [best_move_minimax, h]
  · intro mv h _
    constructor
    · simp [best_move_minimax, h]
    · simp [best_move_minimax, h]

/-- Witness for claim C7 at a concrete one-move position: the sole move is
returned at depths 3 and 5, under two different evaluators, and a
no-legal-move position yields the no-move signal. -/
theorem C7_single_legal_move_witness :
    best_move_minimax OneMoveGame (fun _ => 0) (0 : Nat) 3 = some (7 : Nat) ∧
    best_move_minimax OneMoveGame (fun _ => 0) (0 : Nat) 3
      = best_move_minimax OneMoveGame (fun _ => 1) (0 : Nat) 5 ∧
    best_move_minimax OneMoveGame (fun _ => 0) (9 : Nat) 3 = none := by
  refine ⟨?_, ?_, ?_⟩
  · exact ((C7_single_legal_move_returned_immediately OneMoveGame (fun _ => 0)
      (fun _ => 1) (0 : Nat) 3 5).2 (7 : Nat) rfl (by decide)).1
  · exact ((C7_single_legal_move_returned_immediately OneMoveGame (fun _ => 0)
      (fun _ => 1) (0 : Nat) 3 5).2 (7 : Nat) rfl (by decide)).2
  · exact (C7_single_legal_move_returned_immediately OneMoveGame (fun _ => 0)
      (fun _ => 1) (9 : Nat) 3 5).1 rfl

end Search

namespace Search

variable (G : Engine)

/-! ## Stateful embedding for claim C5

The python search mutates the caller's `Board` by `push`/`pop`.  Here the
board object is modelled as a base position plus the stack of currently
applied moves (python-chess `move_stack`); the current position is the fold
of `push` over the stack.  Every `board.push(move)` appends to the stack and
every `board.pop()` drops the last entry, exactly where the python code
performs them.  Claim C5 is that each entry point hands back the stack it
received. -/

def curPos (base : G.Position) (stk : List G.Move) : G.Position :=
  stk.foldl G.push base

/-- One stateful noisy-move collection step: the check detection
`push`/`is_check`/`pop` of minimax.py lines 96-99 acts on the caller's
board (the move stack). -/
def noisyStepS (base : G.Position) (pr : List G.Move × List G.Move)
    (mv : G.Move) : List G.Move × List G.Move :=
  if G.is_capture (curPos G base pr.2) mv then (pr.1 ++ [mv], pr.2)
  else if G.promotion mv then (pr.1 ++ [mv], pr.2)
  else if pr.1.length < 5 then
    let st1 := pr.2 ++ [mv]
    let st2 := st1.dropLast
    (if G.is_check (curPos G base st1) then pr.1 ++ [mv] else pr.1, st2)
  else pr

/-- Stateful noisy-move collection. -/
def noisyMovesS (base : G.Position) (stk : List G.Move) :
    List G.Move × List G.Move :=
  (G.legal_moves (curPos G base stk)).foldl (noisyStepS G base) ([], stk)

/-- Stateful maximizing quiescence loop (push, recurse, pop, then test). -/
def qloopMaxS (f : List G.Move → E → E → E × List G.Move) :
    List G.Move → List G.Move → E → E → E × List G.Move
  | [], stk, α, _ => (α, stk)
  | mv :: rest, stk, α, β =>
      let r := f (stk ++ [mv]) α β
      let stk2 := r.2.dropLast
      if β ≤ r.1 then (β, stk2)
      else qloopMaxS f rest stk2 (if α < r.1 then r.1 else α) β

/-- Stateful minimizing quiescence loop. -/
def qloopMinS (f : List G.Move → E → E → E × List G.Move) :
    List G.Move → List G.Move → E → E → E × List G.Move
  | [], stk, _, β => (β, stk)
  | mv :: rest, stk, α, β =>
      let r := f (stk ++ [mv]) α β
      let stk2 := r.2.dropLast
      if r.1 ≤ α then (α, stk2)
      else qloopMinS f rest stk2 α (if r.1 < β then r.1 else β)

/-- Stateful `quiescence_search`. -/
def quiescence_searchS (ev : G.Position → Int) :
    Nat → G.Position → List G.Move → E → E → Bool → E × List G.Move
  | 0, base, stk, _, _, _ =>
      (if G.is_game_over (curPos G base stk) then fin (ev (curPos G base stk))
       else fin (ev (curPos G base stk)), stk)
  | d + 1, base, stk, α, β, maximizing =>
      if G.is_game_over (curPos G base stk) then (fin (ev (curPos G base stk)), stk)
      else
        let stand_pat := fin (ev (curPos G base stk))
        if maximizing then
          if β ≤ stand_pat then (β, stk)
          else
            let α' := if α < stand_pat then stand_pat else α
            let ns := noisyMovesS G base stk
            if ns.1.isEmpty then (stand_pat, ns.2)
            else
              qloopMaxS G (fun st a bb => quiescence_searchS ev d base st a bb false)
                (order_moves G (curPos G base stk) ns.1) ns.2 α' β
        else
          if stand_pat ≤ α then (α, stk)
          else
            let β' := if stand_pat < β then stand_pat else β
            let ns := noisyMovesS G base stk
            if ns.1.isEmpty then (stand_pat, ns.2)
            else
              qloopMinS G (fun st a bb => quiescence_searchS ev d base st a bb true)
                (order_moves G (curPos G base stk) ns.1) ns.2 α β'

/-- Stateful fail-soft maximizing minimax loop. -/
def mmLoopMaxS (f : List G.Move → E → E → E × List G.Move) :
    List G.Move → List G.Move → E → E → E → E × List G.Move
  | [], stk, best, _, _ => (best, stk)
  | mv :: rest, stk, best, α, β =>
      let r := f (stk ++ [mv]) α β
      let stk2 := r.2.dropLast
      let best' := max best r.1
      let α' := max α r.1
      if β ≤ α' then (best', stk2)
      else mmLoopMaxS f rest stk2 best' α' β

/-- Stateful fail-soft minimizing minimax loop. -/
def mmLoopMinS (f : List G.Move → E → E → E × List G.Move) :
    List G.Move → List G.Move → E → E → E → E × List G.Move
  | [], stk, best, _, _ => (best, stk)
  | mv :: rest, stk, best, α, β =>
      let r := f (stk ++ [mv]) α β
      let stk2 := r.2.dropLast
      let best' := min best r.1
      let β' := min β r.1
      if β' ≤ α then (best', stk2)
      else mmLoopMinS f rest stk2 best' α β'

/-- Stateful `minimax`. -/
def minimaxS (ev : G.Position → Int) :
    Nat → G.Position → List G.Move → E → E → Bool → E × List G.Move
  | 0, base, stk, α, β, maximizing =>
      if G.is_game_over (curPos G base stk) then (fin (ev (curPos G base stk)), stk)
      else quiescence_searchS G ev 10 base stk α β maximizing
  | depth + 1, base, stk, α, β, maximizing =>
      if G.is_game_over (curPos G base stk) then (fin (ev (curPos G base stk)), stk)
      else
        let legal := G.legal_moves (curPos G base stk)
        if legal.isEmpty then (fin (ev (curPos G base stk)), stk)
        else
          let ordered := order_moves G (curPos G base stk) legal
          if maximizing then
            mmLoopMaxS G (fun st a bb => minimaxS ev depth base st a bb false)
              ordered stk ⊥ α β
          else
            mmLoopMinS G (fun st a bb => minimaxS ev depth base st a bb true)
              ordered stk ⊤ α β

/-- Stateful root loop of `best_move_minimax`: pushes each root move onto
the caller's board and pops it after the recursive search returns. -/
def bmLoopS (ev : G.Position → Int) (d : Nat) (base : G.Position) :
    List G.Move → List G.Move → Option G.Move → E → E → E →
      Option G.Move × List G.Move
  | [], stk, cur, _, _, _ => (cur, stk)
  | mv :: rest, stk, cur, bs, α, β =>
      let st1 := stk ++ [mv]
      if G.turn (curPos G base st1) = false then
        let r := minimaxS G ev d base st1 α β false
        let st2 := r.2.dropLast
        if bs < r.1 then bmLoopS ev d base rest st2 (some mv) r.1 (max α r.1) β
        else bmLoopS ev d base rest st2 cur bs (max α r.1) β
      else
        let r := minimaxS G ev d base st1 α β true
        let st2 := r.2.dropLast
        if r.1 < bs then bmLoopS ev d base rest st2 (some mv) r.1 α (min β r.1)
        else bmLoopS ev d base rest st2 cur bs α (min β r.1)

/-- Stateful `best_move_minimax`. -/
def best_move_minimaxS (ev : G.Position → Int) (base : G.Position)
    (stk : List G.Move) (depth : Nat) : Option G.Move × List G.Move :=
  match G.legal_moves (curPos G base stk) with
  | [] => (none, stk)
  | [mv] => (some mv, stk)
  | _ =>
      bmLoopS G ev (depth - 1) base
        (order_moves G (curPos G base stk) (G.legal_moves (curPos G base stk)))
        stk none (if G.turn (curPos G base stk) then ⊥ else ⊤) ⊥ ⊤

end Search

namespace Search

variable {G : Engine}

/-! ## Bridge: the stateful search equals the pure search and restores the
caller's move stack on every exit path (claim C5). -/

theorem curPos_append (base : G.Position) (stk : List G.Move) (mv : G.Move) :
    curPos G base (stk ++ [mv]) = G.push (curPos G base stk) mv := by
  rw [curPos, curPos, List.foldl_append]
  rfl

theorem noisyStepS_eq (base : G.Position) (stk acc : List G.Move)
    (mv : G.Move) :
    noisyStepS G base (acc, stk) mv
      = (noisyStep G (curPos G base stk) acc mv, stk) := by
  rw [noisyStepS, noisyStep]
  simp only [curPos_append, List.dropLast_concat]
  split_ifs <;> rfl

theorem noisyMovesS_eq (base : G.Position) (stk : List G.Move) :
    noisyMovesS G base stk = (noisyMoves G (curPos G base stk), stk) := by
  rw [noisyMovesS, noisyMoves]
  have h : ∀ (l acc : List G.Move),
      l.foldl (noisyStepS G base) (acc, stk)
        = (l.foldl (noisyStep G (curPos G base stk)) acc, stk) := by
    intro l
    induction l with
    | nil => intro acc; rfl
    | cons mv rest ih =>
        intro acc
        rw [List.foldl_cons, List.foldl_cons, noisyStepS_eq]
        exact ih _
  exact h _ []

theorem qloopMaxS_eq (base : G.Position) {f : G.Position → E → E → E}
    {fS : List G.Move → E → E → E × List G.Move}
    (hf : ∀ (st : List G.Move) (a bb : E), fS st a bb = (f (curPos G base st) a bb, st)) :
    ∀ (ms stk : List G.Move) (α β : E),
      qloopMaxS G fS ms stk α β
        = (qloopMax G f (curPos G base stk) ms α β, stk)
  | [], stk, α, β => rfl
  | mv :: rest, stk, α, β => by
      rw [qloopMaxS, qloopMax]
      simp only [hf, curPos_append, List.dropLast_concat]
      split
      · rfl
      · exact qloopMaxS_eq base hf rest stk _ β

theorem qloopMinS_eq (base : G.Position) {f : G.Position → E → E → E}
    {fS : List G.Move → E → E → E × List G.Move}
    (hf : ∀ (st : List G.Move) (a bb : E), fS st a bb = (f (curPos G base st) a bb, st)) :
    ∀ (ms stk : List G.Move) (α β : E),
      qloopMinS G fS ms stk α β
        = (qloopMin G f (curPos G base stk) ms α β, stk)
  | [], stk, α, β => rfl
  | mv :: rest, stk, α, β => by
      rw [qloopMinS, qloopMin]
      simp only [hf, curPos_append, List.dropLast_concat]
      split
      · rfl
      · exact qloopMinS_eq base hf rest stk α _

theorem quiescence_searchS_eq (ev : G.Position → Int) (d : Nat) :
    ∀ (base : G.Position) (stk : List G.Move) (α β : E) (m : Bool),
      quiescence_searchS G ev d base stk α β m
        = (quiescence_search G ev d (curPos G base stk) α β m, stk) := by
  induction d with
  | zero =>
      intro base stk α β m
      rfl
  | succ d ih =>
      intro base stk α β m
      rw [quiescence_searchS, quiescence_search]
      by_cases hgo : G.is_game_over (curPos G base stk)
      · rw [if_pos hgo, if_pos hgo]
      · rw [if_neg hgo, if_neg hgo]
        cases m with
        | true =>
            rw [if_pos rfl, if_pos rfl]
            by_cases hβs : β ≤ fin (ev (curPos G base stk))
            · rw [if_pos hβs, if_pos hβs]
            · rw [if_neg hβs, if_neg hβs]
              rw [noisyMovesS_eq]
              by_cases hno : (noisyMoves G (curPos G base stk)).isEmpty
              · rw [if_pos hno, if_pos hno]
              · rw [if_neg hno, if_neg hno]
                exact qloopMaxS_eq base (fun st a bb => ih base st a bb false) _ stk _ β
        | false =>
            rw [if_neg Bool.false_ne_true, if_neg Bool.false_ne_true]
            by_cases hαs : fin (ev (curPos G base stk)) ≤ α
            · rw [if_pos hαs, if_pos hαs]
            · rw [if_neg hαs, if_neg hαs]
              rw [noisyMovesS_eq]
              by_cases hno : (noisyMoves G (curPos G base stk)).isEmpty
              · rw [if_pos hno, if_pos hno]
              · rw [if_neg hno, if_neg hno]
                exact qloopMinS_eq base (fun st a bb => ih base st a bb true) _ stk α _

theorem mmLoopMaxS_eq (base : G.Position) {f : G.Position → E → E → E}
    {fS : List G.Move → E → E → E × List G.Move}
    (hf : ∀ (st : List G.Move) (a bb : E), fS st a bb = (f (curPos G base st) a bb, st)) :
    ∀ (ms stk : List G.Move) (best α β : E),
      mmLoopMaxS G fS ms stk best α β
        = (mmLoopMax G f (curPos G base stk) ms best α β, stk)
  | [], stk, best, α, β => rfl
  | mv :: rest, stk, best, α, β => by
      rw [mmLoopMaxS, mmLoopMax]
      simp only [hf, curPos_append, List.dropLast_concat]
      split
      · rfl
      · exact mmLoopMaxS_eq base hf rest stk _ _ β

theorem mmLoopMinS_eq (base : G.Position) {f : G.Position → E → E → E}
    {fS : List G.Move → E → E → E × List G.Move}
    (hf : ∀ (st : List G.Move) (a bb : E), fS st a bb = (f (curPos G base st) a bb, st)) :
    ∀ (ms stk : List G.Move) (best α β : E),
      mmLoopMinS G fS ms stk best α β
        = (mmLoopMin G f (curPos G base stk) ms best α β, stk)
  | [], stk, best, α, β => rfl
  | mv :: rest, stk, best, α, β => by
      rw [mmLoopMinS, mmLoopMin]
      simp only [hf, curPos_append, List.dropLast_concat]
      split
      · rfl
      · exact mmLoopMinS_eq base hf rest stk _ α _

theorem minimaxS_eq (ev : G.Position → Int) (depth : Nat) :
    ∀ (base : G.Position) (stk : List G.Move) (α β : E) (m : Bool),
      minimaxS G ev depth base stk α β m
        = (minimax G ev depth (curPos G base stk) α β m, stk) := by
  induction depth with
  | zero =>
      intro base stk α β m
      rw [minimaxS, minimax]
      by_cases hgo : G.is_game_over (curPos G base stk)
      · rw [if_pos hgo, if_pos hgo]
      · rw [if_neg hgo, if_neg hgo]
        exact quiescence_searchS_eq ev 10 base stk α β m
  | succ depth ih =>
      intro base stk α β m
      rw [minimaxS, minimax]
      by_cases hgo : G.is_game_over (curPos G base stk)
      · rw [if_pos hgo, if_pos hgo]
      · rw [if_neg hgo, if_neg hgo]
        by_cases hleg : (G.legal_moves (curPos G base stk)).isEmpty
        · rw [if_pos hleg, if_pos hleg]
        · rw [if_neg hleg, if_neg hleg]
          cases m with
          | true =>
              rw [if_pos rfl, if_pos rfl]
              exact mmLoopMaxS_eq base (fun st a bb => ih base st a bb false) _ stk ⊥ α β
          | false =>
              rw [if_neg Bool.false_ne_true, if_neg Bool.false_ne_true]
              exact mmLoopMinS_eq base (fun st a bb => ih base st a bb true) _ stk ⊤ α β

theorem bmLoopS_eq (ev : G.Position → Int) (d : Nat) (base : G.Position) :
    ∀ (ms stk : List G.Move) (cur : Option G.Move) (bs α β : E),
      bmLoopS G ev d base ms stk cur bs α β
        = (bmLoop G ev d (curPos G base stk) ms cur bs α β, stk)
  | [], stk, cur, bs, α, β => rfl
  | mv :: rest, stk, cur, bs, α, β => by
      rw [bmLoopS, bmLoop]
      simp only [minimaxS_eq, curPos_append, List.dropLast_concat]
      split
      · split
        · exact bmLoopS_eq ev d base rest stk (some mv) _ _ β
        · exact bmLoopS_eq ev d base rest stk cur bs _ β
      · split
        · exact bmLoopS_eq ev d base rest stk (some mv) _ α _
        · exact bmLoopS_eq ev d base rest stk cur bs α _

theorem best_move_minimaxS_eq (ev : G.Position → Int) (base : G.Position)
    (stk : List G.Move) (depth : Nat) :
    best_move_minimaxS G ev base stk depth
      = (best_move_minimax G ev (curPos G base stk) depth, stk) := by
  rw [best_move_minimaxS, best_move_minimax]
  rcases hl : G.legal_moves (curPos G base stk) with _ | ⟨a, _ | ⟨a2, as2⟩⟩
  · rfl
  · rfl
  · exact bmLoopS_eq ev (depth - 1) base _ stk none _ ⊥ ⊤

end Search

namespace MCTS

/-- `MCTSNode` (mcts.py lines 41-165): a search-tree node holding the
position it represents, `visit_count`, `total_value`, the shuffled
not-yet-tried moves, and the children keyed by move (the python dict,
in insertion order). -/
inductive MTree (Pos Move : Type) : Type where
  | node : Pos → Nat → Rat → List Move → List (Move × MTree Pos Move) →
      MTree Pos Move

/-- `visit_count` of a node. -/
def MTree.visit_count {Pos Move : Type} : MTree Pos Move → Nat
  | .node _ v _ _ _ => v

/-- `total_value` of a node. -/
def MTree.total_value {Pos Move : Type} : MTree Pos Move → Rat
  | .node _ _ w _ _ => w

/-- The children association list of a node. -/
def MTree.childList {Pos Move : Type} : MTree Pos Move →
    List (Move × MTree Pos Move)
  | .node _ _ _ _ cs => cs

/-- The untried-move list of a node. -/
def MTree.untried {Pos Move : Type} : MTree Pos Move → List Move
  | .node _ _ _ u _ => u

/-- `visit_count` of the node at an index path (child indices from the
given node); 0 for paths that leave the tree. -/
def visitAt {Pos Move : Type} : List Nat → MTree Pos Move → Nat
  | [], .node _ v _ _ _ => v
  | i :: rest, .node _ _ _ _ cs =>
      match cs[i]? with
      | some pr => visitAt rest pr.2
      | none => 0

/-- `total_value` of the node at an index path; 0 off the tree. -/
def totalAt {Pos Move : Type} : List Nat → MTree Pos Move → Rat
  | [], .node _ _ w _ _ => w
  | i :: rest, .node _ _ _ _ cs =>
      match cs[i]? with
      | some pr => totalAt rest pr.2
      | none => 0

end MCTS

namespace MCTS

variable (G : Engine)

/-- One MCTS simulation (the body of the loop in `mcts_search`, mcts.py
lines 318-344, together with `backpropagate`, lines 263-279, realised
functionally along the descent path).

* Selection: while the node is fully expanded (`untried = []`) and not
  terminal, descend into the child chosen by `chooser` (the UCT selection of
  `best_child` is a function of the node's statistics; it is abstracted as
  an arbitrary chooser, and every theorem below holds for all choosers —
  in particular for UCT).
* Expansion (`expand`, mcts.py 147-165): pop the *last* untried move
  (`untried_moves.pop()`), push it, and create the child with a fresh
  shuffled untried list (`shuffleOf`, the `random.shuffle` oracle).
* Simulation: `rollout` abstracts `simulate_with_evaluator`/
  `simulate_random` (a White-perspective result); `adjust` is the
  root-turn sign adjustment applied by `mcts_search` lines 338-341.
* Backpropagation: the node where the simulation began gets the adjusted
  value; each ancestor adds 1 to `visit_count` and the successively negated
  value to `total_value`, up to and including the node this call was made
  on.

Returns the updated subtree, the child-index path to the simulation start
node, and the value added at this node's own level.

A fully-expanded childless non-terminal node (impossible under a real rules
engine, where a non-terminal position has legal moves; the python code
would raise on `max` of an empty sequence) simulates in place. -/
def simStep (shuffleOf : G.Position → List G.Move) (rollout : G.Position → Rat)
    (chooser : MTree G.Position G.Move → Nat) (adjust : Rat → Rat) :
    MTree G.Position G.Move → MTree G.Position G.Move × List Nat × Rat
  | .node p v w u cs =>
      if G.is_game_over p then
        (.node p (v + 1) (w + adjust (rollout p)) u cs, [], adjust (rollout p))
      else
        match u with
        | [] =>
            match hcs : cs[chooser (.node p v w [] cs) % cs.length]? with
            | some pr =>
                let r := simStep shuffleOf rollout chooser adjust pr.2
                (.node p (v + 1) (w + -r.2.2) []
                   (cs.set (chooser (.node p v w [] cs) % cs.length) (pr.1, r.1)),
                 (chooser (.node p v w [] cs) % cs.length) :: r.2.1, -r.2.2)
            | none =>
                (.node p (v + 1) (w + adjust (rollout p)) [] cs, [],
                 adjust (rollout p))
        | m0 :: urest =>
            let mv := (m0 :: urest).getLast (List.cons_ne_nil m0 urest)
            let cpos := G.push p mv
            let val := adjust (rollout cpos)
            (.node p (v + 1) (w + -val) (m0 :: urest).dropLast
               (cs ++ [(mv, .node cpos 1 val (shuffleOf cpos) [])]),
             [cs.length], -val)
  termination_by t => sizeOf t
  decreasing_by
    have h1 : pr ∈ cs := List.getElem?_mem hcs
    have h2 : sizeOf pr < sizeOf cs := List.sizeOf_lt_of_mem h1
    rcases pr with ⟨mv, c⟩
    simp only [MTree.node.sizeOf_spec, Prod.mk.sizeOf_spec] at *
    omega

end MCTS

namespace MCTS

variable (G : Engine)

/-- The simulation loop of `mcts_search` (mcts.py lines 318-344): run `n`
simulations from the given tree, collecting each simulation's index path. -/
def mctsRun (shuffleOf : G.Position → List G.Move) (rollout : G.Position → Rat)
    (chooser : MTree G.Position G.Move → Nat) (adjust : Rat → Rat) :
    Nat → MTree G.Position G.Move → MTree G.Position G.Move × List (List Nat)
  | 0, t => (t, [])
  | n + 1, t =>
      let r := simStep G shuffleOf rollout chooser adjust t
      let rest := mctsRun shuffleOf rollout chooser adjust n r.1
      (rest.1, r.2.1 :: rest.2)

/-- `most_visited_child` (mcts.py lines 136-145): python `max` by
`visit_count` — the first child attaining the maximal count; `none` when
there are no children. -/
def most_visited_child {Pos Move : Type} (cs : List (Move × MTree Pos Move)) :
    Option (Move × MTree Pos Move) :=
  cs.foldl
    (fun acc pr =>
      match acc with
      | none => some pr
      | some best => if best.2.visit_count < pr.2.visit_count then some pr else acc)
    none

/-- `mcts_search` (mcts.py lines 282-369): `None` on game-over positions;
otherwise build a fresh root, run the simulations, and return the move of
the most visited root child.  The value produced by a rollout is adjusted by
the *root's* side to move (`if board.turn == chess.BLACK: value = -value`,
mcts.py lines 338-341) — see claim C1. -/
def mcts_search (shuffleOf : G.Position → List G.Move)
    (rollout : G.Position → Rat) (chooser : MTree G.Position G.Move → Nat)
    (b : G.Position) (simulations : Nat) : Option G.Move :=
  if G.is_game_over b then none
  else
    let adjust : Rat → Rat := fun v => if G.turn b = false then -v else v
    let root := MTree.node b 0 0 (shuffleOf b) []
    let result := mctsRun G shuffleOf rollout chooser adjust simulations root
    match most_visited_child result.1.childList with
    | some pr => some pr.1
    | none => none

/-- `best_move_mcts` (mcts.py lines 372-387): a thin wrapper around
`mcts_search`. -/
def best_move_mcts (shuffleOf : G.Position → List G.Move)
    (rollout : G.Position → Rat) (chooser : MTree G.Position G.Move → Nat)
    (b : G.Position) (simulations : Nat) : Option G.Move :=
  mcts_search G shuffleOf rollout chooser b simulations

/-- The random-playout loop of `simulate_random` (mcts.py lines 185-195):
play random legal moves (the random choice abstracted as an index oracle
`pick`, taken modulo the number of legal moves) until game over, no legal
move, or the move cap; returns the final position and the number of moves
played.  The fuel is the remaining budget `max_moves - moves`. -/
def simLoop (pick : Nat → Nat) : Nat → Nat → G.Position → G.Position × Nat
  | 0, steps, b => (b, steps)
  | fuel + 1, steps, b =>
      if G.is_game_over b then (b, steps)
      else
        match G.legal_moves b with
        | [] => (b, steps)
        | m0 :: ms =>
            simLoop pick fuel (steps + 1)
              (G.push b ((m0 :: ms).get
                ⟨pick steps % (ms.length + 1), Nat.mod_lt _ (Nat.succ_pos _)⟩))

/-- `simulate_random` (mcts.py lines 168-203): random rollout; the result is
+1 for a final checkmate with Black to move, -1 for a final checkmate with
White to move, and 0 otherwise (draws of any kind, including games halted by
the move cap).  The python default for `max_moves` is 200. -/
def simulate_random (pick : Nat → Nat) (b : G.Position) (max_moves : Nat) :
    Rat :=
  let final := simLoop G pick max_moves 0 b
  if G.is_checkmate final.1 then
    (if G.turn final.1 = false then 1 else -1)
  else 0

end MCTS

namespace MCTS

variable {G : Engine}

/-- Per-simulation visit-count accounting (claims C8): one `simStep` adds
exactly 1 to the `visit_count` of every node on the simulation's
backpropagation path (the prefixes of the returned index path, from the
simulation's starting node up to the node the step was invoked on) and
leaves every other node's count unchanged. -/
theorem simStep_visitAt (shuffleOf : G.Position → List G.Move)
    (rollout : G.Position → Rat) (chooser : MTree G.Position G.Move → Nat)
    (adjust : Rat → Rat) (t : MTree G.Position G.Move) :
    ∀ a : List Nat,
      visitAt a (simStep G shuffleOf rollout chooser adjust t).1
        = visitAt a t +
          (if a.isPrefixOf (simStep G shuffleOf rollout chooser adjust t).2.1
           then 1 else 0) := by
  induction t using simStep.induct G shuffleOf rollout chooser adjust with
  | case1 p v w u cs hgo =>
      rcases u with _ | ⟨m0, urest⟩
      all_goals
        intro a
        rw [simStep, if_pos hgo]
        rcases a with _ | ⟨i, rest⟩
        all_goals simp [visitAt, List.isPrefixOf]
  | case2 p v w cs hgo pr hcs ih =>
      intro a
      rw [simStep, if_neg hgo]
      split
      · next pr' heq =>
          have hpr : pr' = pr := Option.some.inj (heq.symm.trans hcs)
          subst hpr
          have hlen : chooser (MTree.node p v w [] cs) % cs.length < cs.length :=
            (List.getElem?_eq_some_iff.mp hcs).1
          rcases a with _ | ⟨i, rest⟩
          · simp [visitAt, List.isPrefixOf]
          · by_cases hi : i = chooser (MTree.node p v w [] cs) % cs.length
            · subst hi
              simp only [visitAt, List.getElem?_set_self hlen, hcs,
                List.isPrefixOf, beq_self_eq_true, Bool.true_and]
              exact ih rest
            · simp only [visitAt, List.getElem?_set_ne (Ne.symm hi),
                List.isPrefixOf]
              have hbeq : (i == chooser (MTree.node p v w [] cs) % cs.length) = false := by
                simp [hi]
              simp [hbeq]
      · next heq =>
          rw [hcs] at heq
          exact absurd heq (Option.some_ne_none pr)
  | case3 p v w cs hgo hcs =>
      intro a
      rw [simStep, if_neg hgo]
      split
      · next pr' heq =>
          rw [hcs] at heq
          exact absurd heq.symm (Option.some_ne_none pr')
      · next heq =>
          rcases a with _ | ⟨i, rest⟩
          · simp [visitAt, List.isPrefixOf]
          · simp [visitAt, List.isPrefixOf]
  | case4 p v w cs hgo m0 urest =>
      intro a
      rw [simStep, if_neg hgo]
      rcases a with _ | ⟨i, rest⟩
      · simp [visitAt, List.isPrefixOf]
      · simp only [visitAt, List.isPrefixOf]
        rcases Nat.lt_trichotomy i cs.length with hi | hi | hi
        · rw [List.getElem?_append, if_pos hi]
          have hbeq : (i == cs.length) = false := by simp [Nat.ne_of_lt hi]
          simp [hbeq]
        · subst hi
          rw [List.getElem?_concat_length]
          rw [List.getElem?_eq_none le_rfl]
          rcases rest with _ | ⟨j, rr⟩
          · simp [visitAt, List.isPrefixOf]
          · simp [visitAt, List.isPrefixOf]
        · rw [List.getElem?_append, if_neg (by omega)]
          rw [List.getElem?_eq_none (by simp only [List.length_cons, List.length_nil]; omega)]
          rw [List.getElem?_eq_none (Nat.le_of_lt hi)]
          have hbeq : (i == cs.length) = false := by simp [Nat.ne_of_gt hi]
          simp [hbeq]

end MCTS

namespace MCTS

variable {G : Engine}

/-- Visit counts over a whole run: starting from any tree, after `n`
simulations every node's `visit_count` has grown by exactly the number of
simulation paths that pass through it. -/
theorem mctsRun_visitAt (shuffleOf : G.Position → List G.Move)
    (rollout : G.Position → Rat) (chooser : MTree G.Position G.Move → Nat)
    (adjust : Rat → Rat) :
    ∀ (n : Nat) (t : MTree G.Position G.Move) (a : List Nat),
      visitAt a (mctsRun G shuffleOf rollout chooser adjust n t).1
        = visitAt a t +
          (mctsRun G shuffleOf rollout chooser adjust n t).2.countP
            (fun pth => a.isPrefixOf pth)
  | 0, t, a => by simp [mctsRun]
  | n + 1, t, a => by
      rw [mctsRun]
      rw [mctsRun_visitAt shuffleOf rollout chooser adjust n _ a]
      rw [simStep_visitAt shuffleOf rollout chooser adjust t a]
      rw [List.countP_cons]
      rcases h : (simStep G shuffleOf rollout chooser adjust t).2.1 with _ | _
      all_goals omega

/-- Exactly `n` simulation paths are collected by `n` simulations. -/
theorem mctsRun_length (shuffleOf : G.Position → List G.Move)
    (rollout : G.Position → Rat) (chooser : MTree G.Position G.Move → Nat)
    (adjust : Rat → Rat) :
    ∀ (n : Nat) (t : MTree G.Position G.Move),
      (mctsRun G shuffleOf rollout chooser adjust n t).2.length = n
  | 0, _ => rfl
  | n + 1, t => by
      rw [mctsRun]
      simp [mctsRun_length shuffleOf rollout chooser adjust n]

/-- A fresh node (in particular the fresh root of `mcts_search`) has visit
count 0 everywhere. -/
theorem visitAt_fresh (b : G.Position) (u : List G.Move) :
    ∀ a : List Nat, visitAt a (MTree.node b 0 0 u [] : MTree G.Position G.Move) = 0
  | [] => rfl
  | _ :: _ => rfl

/-- Claim C8: during an MCTS search of `N` simulations (the simulation loop
of `mcts_search`, started on the fresh root it builds, with the root-turn
value adjustment it applies), every node's `visit_count` equals the number
of simulations whose backpropagation path passed through that node — a node
is addressed by its child-index path `a`, and a simulation passes through it
exactly when `a` is a prefix of the simulation's path; in particular the
root's (`a = []`) `visit_count` equals `N`.  This holds for every rules
engine, every shuffle and rollout oracle and every selection rule
(`chooser` subsumes UCT). -/
theorem C8_visit_count_equals_simulations_through_node (G : Engine)
    (shuffleOf : G.Position → List G.Move) (rollout : G.Position → Rat)
    (chooser : MTree G.Position G.Move → Nat) (b : G.Position) (N : Nat) :
    (∀ a : List Nat,
      visitAt a (mctsRun G shuffleOf rollout chooser
          (fun v => if G.turn b = false then -v else v) N
          (MTree.node b 0 0 (shuffleOf b) [])).1
        = (mctsRun G shuffleOf rollout chooser
            (fun v => if G.turn b = false then -v else v) N
            (MTree.node b 0 0 (shuffleOf b) [])).2.countP
            (fun pth => a.isPrefixOf pth)) ∧
    visitAt [] (mctsRun G shuffleOf rollout chooser
        (fun v => if G.turn b = false then -v else v) N
        (MTree.node b 0 0 (shuffleOf b) [])).1 = N := by
  constructor
  · intro a
    rw [mctsRun_visitAt, visitAt_fresh]
    omega
  · rw [mctsRun_visitAt, visitAt_fresh]
    have h : ∀ l : List (List Nat),
        (l.countP fun pth => ([] : List Nat).isPrefixOf pth) = l.length := by
      intro l
      induction l with
      | nil => rfl
      | cons x xs ih => rw [List.countP_cons]; simp [List.isPrefixOf, ih]
    rw [h, mctsRun_length]
    omega

end MCTS

namespace MCTS

/-- A three-position game modelling the perspective bug of claim C1:
position 0 (White to move, one move) → position 1 (Black to move, one move)
→ position 2 (terminal).  Rollouts always report +1 from White's
perspective. -/
def C1Game : Engine where
  Position := Nat
  Move := Nat
  legal_moves := fun p => if p = 0 then [10] else if p = 1 then [20] else []
  push := fun p _ => p + 1
  turn := fun p => p % 2 == 0
  is_game_over := fun p => decide (2 ≤ p)
  is_checkmate := fun _ => false
  is_check := fun _ => false
  is_capture := fun _ _ => false
  promotion := fun _ => false
  to_square := fun _ => 0
  from_square := fun _ => 0
  piece_at := fun _ _ => none

unseal simStep in
/-- Claim C1 is violated by the code (a code bug): `mcts_search` adjusts
every rollout value by the side to move at the *root* (`board.turn`,
mcts.py line 340), not by the side to move at the simulation's starting
node.  Demonstration on `C1Game` (root = position 0, White to move;
rollouts always +1 from White's perspective; the search loop is run exactly
as `mcts_search` runs it, including the root-turn adjustment):

* simulation 1 starts at the depth-1 node (position 1, **Black** to move)
  and the value fed into backpropagation there is `+1` (it becomes that
  node's `total_value`, visited once);
* simulation 2 starts at the depth-2 node (position 2, **White** to move)
  and the value fed there is again `+1`;

so two simulations whose starting nodes have opposite sides to move receive
the identical adjusted value for the same White-perspective rollout — the
adjustment is a function of the root's turn only, and a value expressed
from a Black-to-move node's own perspective (`-1`) differs from the `+1`
the code feeds.  The repository's own test suite
(`src/test/test_mcts_correctness.py`) calls this out: "Bug: Using
root.turn instead of search_board.turn."  The backpropagation loop itself
(increment `visit_count`, add the value, negate, move to parent, stop after
the root) is faithful, as the visit/total counts below show. -/
theorem C1_rollout_value_adjusted_by_root_turn_not_node_turn :
    totalAt [0]
        (mctsRun C1Game (fun p => C1Game.legal_moves p) (fun _ => (1 : Rat))
          (fun _ => 0) (fun v => if C1Game.turn (0 : Nat) = false then -v else v)
          1 (MTree.node (0 : Nat) 0 0 (C1Game.legal_moves (0 : Nat)) [])).1 = 1 ∧
    visitAt [0]
        (mctsRun C1Game (fun p => C1Game.legal_moves p) (fun _ => (1 : Rat))
          (fun _ => 0) (fun v => if C1Game.turn (0 : Nat) = false then -v else v)
          1 (MTree.node (0 : Nat) 0 0 (C1Game.legal_moves (0 : Nat)) [])).1 = 1 ∧
    C1Game.turn (1 : Nat) = false ∧
    totalAt [0, 0]
        (mctsRun C1Game (fun p => C1Game.legal_moves p) (fun _ => (1 : Rat))
          (fun _ => 0) (fun v => if C1Game.turn (0 : Nat) = false then -v else v)
          2 (MTree.node (0 : Nat) 0 0 (C1Game.legal_moves (0 : Nat)) [])).1 = 1 ∧
    visitAt [0, 0]
        (mctsRun C1Game (fun p => C1Game.legal_moves p) (fun _ => (1 : Rat))
          (fun _ => 0) (fun v => if C1Game.turn (0 : Nat) = false then -v else v)
          2 (MTree.node (0 : Nat) 0 0 (C1Game.legal_moves (0 : Nat)) [])).1 = 1 ∧
    C1Game.turn (2 : Nat) = true ∧
    C1Game.turn (0 : Nat) = true ∧
    (-1 : Rat) ≠ 1 := by
  refine ⟨?_, ?_, ?_, ?_, ?_, ?_, ?_, ?_⟩ <;> decide

end MCTS

namespace MCTS

variable {G : Engine}

theorem map_fst_set {α β : Type} :
    ∀ (cs : List (α × β)) (i : Nat) (pr : α × β) (b' : β),
      cs[i]? = some pr → (cs.set i (pr.1, b')).map Prod.fst = cs.map Prod.fst
  | [], i, pr, b', h => by simp at h
  | c :: rest, 0, pr, b', h => by
      simp only [List.getElem?_cons_zero, Option.some.injEq] at h
      subst h
      rfl
  | c :: rest, i + 1, pr, b', h => by
      simp only [List.getElem?_cons_succ] at h
      simp only [List.set_cons_succ, List.map_cons]
      rw [map_fst_set rest i pr b' h]

/-- One simulation step preserves, as a multiset, the union of a node's
child keys and its untried moves (expansion just moves the popped untried
move into the keys). -/
theorem simStep_keys (shuffleOf : G.Position → List G.Move)
    (rollout : G.Position → Rat) (chooser : MTree G.Position G.Move → Nat)
    (adjust : Rat → Rat) (t : MTree G.Position G.Move) :
    (((simStep G shuffleOf rollout chooser adjust t).1.childList.map Prod.fst)
        ++ (simStep G shuffleOf rollout chooser adjust t).1.untried).Perm
      ((t.childList.map Prod.fst) ++ t.untried) := by
  induction t using simStep.induct G shuffleOf rollout chooser adjust with
  | case1 p v w u cs hgo =>
      rcases u with _ | ⟨m0, urest⟩
      all_goals
        rw [simStep, if_pos hgo]
        exact List.Perm.refl _
  | case2 p v w cs hgo pr hcs ih =>
      rw [simStep, if_neg hgo]
      split
      · next pr' heq =>
          have hpr : pr' = pr := Option.some.inj (heq.symm.trans hcs)
          subst hpr
          simp only [MTree.childList, MTree.untried]
          rw [map_fst_set cs _ pr' _ hcs]
      · next heq =>
          exact List.Perm.refl _
  | case3 p v w cs hgo hcs =>
      rw [simStep, if_neg hgo]
      split
      · next pr' heq =>
          rw [hcs] at heq
          exact absurd heq.symm (Option.some_ne_none pr')
      · next heq =>
          exact List.Perm.refl _
  | case4 p v w cs hgo m0 urest =>
      rw [simStep, if_neg hgo]
      simp only [MTree.childList, MTree.untried, List.map_append, List.map_cons,
        List.map_nil]
      rw [List.append_assoc]
      have hperm : ([(m0 :: urest).getLast (List.cons_ne_nil m0 urest)]
          ++ (m0 :: urest).dropLast).Perm (m0 :: urest) := by
        have h := @List.perm_append_comm _
          [(m0 :: urest).getLast (List.cons_ne_nil m0 urest)]
          ((m0 :: urest).dropLast)
        rw [List.dropLast_append_getLast (List.cons_ne_nil m0 urest)] at h
        exact h
      exact List.Perm.append_left _ hperm

/-- One simulation step never removes children. -/
theorem simStep_childList_length (shuffleOf : G.Position → List G.Move)
    (rollout : G.Position → Rat) (chooser : MTree G.Position G.Move → Nat)
    (adjust : Rat → Rat) (t : MTree G.Position G.Move) :
    t.childList.length ≤ (simStep G shuffleOf rollout chooser adjust t).1.childList.length := by
  induction t using simStep.induct G shuffleOf rollout chooser adjust with
  | case1 p v w u cs hgo =>
      rcases u with _ | ⟨m0, urest⟩
      all_goals
        rw [simStep, if_pos hgo]
        exact le_rfl
  | case2 p v w cs hgo pr hcs ih =>
      rw [simStep, if_neg hgo]
      split
      · next pr' heq =>
          simp [MTree.childList]
      · next heq =>
          exact le_rfl
  | case3 p v w cs hgo hcs =>
      rw [simStep, if_neg hgo]
      split
      · next pr' heq =>
          rw [hcs] at heq
          exact absurd heq.symm (Option.some_ne_none pr')
      · next heq =>
          exact le_rfl
  | case4 p v w cs hgo m0 urest =>
      rw [simStep, if_neg hgo]
      simp [MTree.childList]

/-- A non-terminal node with untried moves gains a child (the expansion
branch runs). -/
theorem simStep_expands (shuffleOf : G.Position → List G.Move)
    (rollout : G.Position → Rat) (chooser : MTree G.Position G.Move → Nat)
    (adjust : Rat → Rat) (p : G.Position) (v : Nat) (w : Rat)
    (m0 : G.Move) (urest : List G.Move)
    (cs : List (G.Move × MTree G.Position G.Move))
    (hgo : G.is_game_over p = false) :
    1 ≤ (simStep G shuffleOf rollout chooser adjust
      (MTree.node p v w (m0 :: urest) cs)).1.childList.length := by
  rw [simStep, if_neg (by rw [hgo]; exact Bool.false_ne_true)]
  simp [MTree.childList]

theorem mctsRun_keys (shuffleOf : G.Position → List G.Move)
    (rollout : G.Position → Rat) (chooser : MTree G.Position G.Move → Nat)
    (adjust : Rat → Rat) :
    ∀ (n : Nat) (t : MTree G.Position G.Move),
      (((mctsRun G shuffleOf rollout chooser adjust n t).1.childList.map Prod.fst)
          ++ (mctsRun G shuffleOf rollout chooser adjust n t).1.untried).Perm
        ((t.childList.map Prod.fst) ++ t.untried)
  | 0, t => List.Perm.refl _
  | n + 1, t => by
      rw [mctsRun]
      exact (mctsRun_keys shuffleOf rollout chooser adjust n _).trans
        (simStep_keys shuffleOf rollout chooser adjust t)

theorem mctsRun_childList_length (shuffleOf : G.Position → List G.Move)
    (rollout : G.Position → Rat) (chooser : MTree G.Position G.Move → Nat)
    (adjust : Rat → Rat) :
    ∀ (n : Nat) (t : MTree G.Position G.Move),
      t.childList.length ≤ (mctsRun G shuffleOf rollout chooser adjust n t).1.childList.length
  | 0, t => le_rfl
  | n + 1, t => by
      rw [mctsRun]
      exact le_trans (simStep_childList_length shuffleOf rollout chooser adjust t)
        (mctsRun_childList_length shuffleOf rollout chooser adjust n _)

theorem most_visited_child_fold_some {Pos Move : Type} :
    ∀ (cs : List (Move × MTree Pos Move)) (pr₀ : Move × MTree Pos Move),
      cs.foldl
        (fun acc pr =>
          match acc with
          | none => some pr
          | some best => if best.2.visit_count < pr.2.visit_count then some pr else acc)
        (some pr₀) ≠ none
  | [], pr₀ => Option.some_ne_none pr₀
  | c :: rest, pr₀ => by
      rw [List.foldl_cons]
      show List.foldl _
        (if pr₀.2.visit_count < c.2.visit_count then some c else some pr₀)
        rest ≠ none
      split
      · exact most_visited_child_fold_some rest _
      · exact most_visited_child_fold_some rest _

theorem most_visited_child_fold_mem {Pos Move : Type} :
    ∀ (cs : List (Move × MTree Pos Move)) (acc : Option (Move × MTree Pos Move)),
      cs.foldl
        (fun acc pr =>
          match acc with
          | none => some pr
          | some best => if best.2.visit_count < pr.2.visit_count then some pr else acc)
        acc = acc ∨
      ∃ pr ∈ cs,
        cs.foldl
          (fun acc pr =>
            match acc with
            | none => some pr
            | some best => if best.2.visit_count < pr.2.visit_count then some pr else acc)
          acc = some pr
  | [], acc => Or.inl rfl
  | c :: rest, acc => by
      rw [List.foldl_cons]
      rcases most_visited_child_fold_mem rest
          (match acc with
           | none => some c
           | some best => if best.2.visit_count < c.2.visit_count then some c else acc)
        with h | ⟨pr, hpr, h⟩
      · rw [h]
        rcases acc with _ | best
        · exact Or.inr ⟨c, List.mem_cons_self c rest, rfl⟩
        · simp only
          split
          · exact Or.inr ⟨c, List.mem_cons_self c rest, rfl⟩
          · exact Or.inl rfl
      · exact Or.inr ⟨pr, List.mem_cons_of_mem c hpr, h⟩

/-- A nonempty children list yields a most-visited child, and it is one of
the children. -/
theorem most_visited_child_some {Pos Move : Type}
    (c : Move × MTree Pos Move) (rest : List (Move × MTree Pos Move)) :
    ∃ pr ∈ c :: rest, most_visited_child (c :: rest) = some pr := by
  rw [most_visited_child, List.foldl_cons]
  rcases most_visited_child_fold_mem rest (some c) with h | ⟨pr, hpr, h⟩
  · exact ⟨c, List.mem_cons_self c rest, h⟩
  · exact ⟨pr, List.mem_cons_of_mem c hpr, h⟩

end MCTS

namespace MCTS

variable {G : Engine}

/-- `mcts_search` with at least one simulation on a live position returns a
legal move: the first simulation expands a root child, children are never
removed, root-child keys always come from the root's (shuffled) legal
moves, and the most-visited child exists and is one of them. -/
theorem mcts_search_some (shuffleOf : G.Position → List G.Move)
    (rollout : G.Position → Rat) (chooser : MTree G.Position G.Move → Nat)
    (b : G.Position) (N : Nat) (hgo : G.is_game_over b = false)
    (hperm : (shuffleOf b).Perm (G.legal_moves b))
    (hleg : G.legal_moves b ≠ []) (hN : 1 ≤ N) :
    ∃ m ∈ G.legal_moves b, mcts_search G shuffleOf rollout chooser b N = some m := by
  have hsh : shuffleOf b ≠ [] := by
    intro hh
    rw [hh] at hperm
    exact hleg hperm.symm.eq_nil
  obtain ⟨n, rfl⟩ : ∃ n, N = n + 1 := ⟨N - 1, by omega⟩
  rw [mcts_search, if_neg (by rw [hgo]; exact Bool.false_ne_true)]
  simp only
  rw [mctsRun]
  obtain ⟨s0, srest, hshl⟩ := List.exists_cons_of_ne_nil hsh
  have hexp : 1 ≤ (simStep G shuffleOf rollout chooser
      (fun v => if G.turn b = false then -v else v)
      (MTree.node b 0 0 (shuffleOf b) [])).1.childList.length := by
    rw [hshl]
    exact simStep_expands shuffleOf rollout chooser _ b 0 0 s0 srest [] hgo
  have hlen : 1 ≤ (mctsRun G shuffleOf rollout chooser
      (fun v => if G.turn b = false then -v else v) n
      (simStep G shuffleOf rollout chooser
        (fun v => if G.turn b = false then -v else v)
        (MTree.node b 0 0 (shuffleOf b) [])).1).1.childList.length :=
    le_trans hexp (mctsRun_childList_length shuffleOf rollout chooser _ n _)
  obtain ⟨c, crest, hcl⟩ := List.exists_cons_of_ne_nil
    (List.ne_nil_of_length_pos (Nat.lt_of_lt_of_le Nat.zero_lt_one hlen))
  obtain ⟨pr, hpr, hmv⟩ := most_visited_child_some c crest
  rw [hcl, hmv]
  refine ⟨pr.1, ?_, rfl⟩
  have hkeys := (mctsRun_keys shuffleOf rollout chooser
      (fun v => if G.turn b = false then -v else v) n
      (simStep G shuffleOf rollout chooser
        (fun v => if G.turn b = false then -v else v)
        (MTree.node b 0 0 (shuffleOf b) [])).1).trans
    (simStep_keys shuffleOf rollout chooser
      (fun v => if G.turn b = false then -v else v)
      (MTree.node b 0 0 (shuffleOf b) []))
  have hmem : pr.1 ∈ (mctsRun G shuffleOf rollout chooser
      (fun v => if G.turn b = false then -v else v) n
      (simStep G shuffleOf rollout chooser
        (fun v => if G.turn b = false then -v else v)
        (MTree.node b 0 0 (shuffleOf b) [])).1).1.childList.map Prod.fst := by
    rw [hcl]
    exact List.mem_map_of_mem Prod.fst hpr
  have hmem2 := hkeys.mem_iff.mp (List.mem_append_left _ hmem)
  simp only [MTree.childList, MTree.untried, List.map_nil, List.nil_append] at hmem2
  exact hperm.mem_iff.mp hmem2

/-- A rules engine modelling python-chess on the king-versus-king position
`k7/8/8/8/8/8/8/7K w - - 0 1`: the game is over (draw by insufficient
material, python-chess `is_game_over()` is `True`) although legal moves
exist (each king has moves, here modelled as three of them). -/
def KvKGame : Engine where
  Position := Nat
  Move := Nat
  legal_moves := fun p => if p = 0 then [1, 2, 3] else []
  push := fun p _ => p + 1
  turn := fun _ => true
  is_game_over := fun _ => true
  is_checkmate := fun _ => false
  is_check := fun _ => false
  is_capture := fun _ _ => false
  promotion := fun _ => false
  to_square := fun _ => 0
  from_square := fun _ => 0
  piece_at := fun _ _ => none

/-- Counterexample to claim C2 as stated: on the king-versus-king draw
position (modelled by `KvKGame`, following python-chess behaviour on FEN
`k7/8/8/8/8/8/8/7K w - - 0 1`), `mcts_search` returns the NoMove signal
`none` at its game-over early exit even though legal moves exist. -/
theorem C2_counterexample_mcts_none_with_legal_moves :
    mcts_search KvKGame (fun p => KvKGame.legal_moves p) (fun _ => (1 : Rat))
      (fun _ => 0) (0 : Nat) 200 = none ∧
    KvKGame.legal_moves (0 : Nat) ≠ [] := by
  constructor
  · rfl
  · show ([1, 2, 3] : List Nat) ≠ []
    decide

/-- Claim C2, amended as the counterexample forces: `best_move_minimax`
returns `none` exactly when there are no legal moves and otherwise returns
a legal move (for any rules engine in which pushing a move flips the side
to move); `mcts_search`, however, returns `none` on every game-over
position — including positions that still have legal moves, such as draws
by insufficient material — and only when the position is not game over
(with a shuffle oracle that permutes the legal moves, at least one legal
move and at least one simulation) is it guaranteed to return a legal
move. -/
theorem C2_no_move_signal_amended :
    (∀ (G : Engine) (ev : G.Position → Int) (b : G.Position) (depth : Nat),
      (∀ (p : G.Position) (mv : G.Move), G.turn (G.push p mv) = !G.turn p) →
      ((Search.best_move_minimax G ev b depth = none ↔ G.legal_moves b = []) ∧
       (G.legal_moves b ≠ [] →
         ∃ m ∈ G.legal_moves b, Search.best_move_minimax G ev b depth = some m))) ∧
    (∀ (G : Engine) (shuffleOf : G.Position → List G.Move)
        (rollout : G.Position → Rat) (chooser : MTree G.Position G.Move → Nat)
        (b : G.Position) (N : Nat),
      (G.is_game_over b = true → mcts_search G shuffleOf rollout chooser b N = none) ∧
      (G.is_game_over b = false → (shuffleOf b).Perm (G.legal_moves b) →
        G.legal_moves b ≠ [] → 1 ≤ N →
        ∃ m ∈ G.legal_moves b, mcts_search G shuffleOf rollout chooser b N = some m)) := by
  constructor
  · intro G ev b depth hturn
    have h := Search.best_move_minimax_total ev b depth hturn
    constructor
    · constructor
      · intro hnone
        by_contra hne
        obtain ⟨m, _, hm⟩ := h.2 hne
        rw [hnone] at hm
        exact Option.noConfusion hm
      · exact h.1
    · exact h.2
  · intro G shuffleOf rollout chooser b N
    constructor
    · intro hgo
      rw [mcts_search, if_pos hgo]
    · intro hgo hperm hleg hN
      exact mcts_search_some shuffleOf rollout chooser b N hgo hperm hleg hN

unseal simStep in
/-- Witness for the amended claim C2 at concrete inputs: on `C1Game`
(position 0, one legal move 10, side to move alternates under push), both
searches return the legal move 10. -/
theorem C2_no_move_signal_witness :
    Search.best_move_minimax C1Game (fun _ => 0) (0 : Nat) 3 = some (10 : Nat) ∧
    mcts_search C1Game (fun p => C1Game.legal_moves p) (fun _ => (1 : Rat))
      (fun _ => 0) (0 : Nat) 5 = some (10 : Nat) := by
  have hturn : ∀ (p : Nat) (mv : Nat), C1Game.turn (C1Game.push p mv) = !C1Game.turn p := by
    intro p mv
    show ((p + 1) % 2 == 0) = !(p % 2 == 0)
    rcases Nat.mod_two_eq_zero_or_one p with h | h <;> simp [Nat.add_mod, h]
  constructor
  · obtain ⟨m, hm, hres⟩ :=
      ((C2_no_move_signal_amended.1 C1Game (fun _ => 0) (0 : Nat) 3 hturn).2
        (by show ([10] : List Nat) ≠ []; decide))
    have hm' : m ∈ ([10] : List Nat) := hm
    have h10 : m = (10 : Nat) := List.mem_singleton.mp hm'
    rw [h10] at hres
    exact hres
  · obtain ⟨m, hm, hres⟩ :=
      ((C2_no_move_signal_amended.2 C1Game (fun p => C1Game.legal_moves p)
        (fun _ => (1 : Rat)) (fun _ => 0) (0 : Nat) 5).2 rfl (List.Perm.refl _)
        (by show ([10] : List Nat) ≠ []; decide) (by decide))
    have hm' : m ∈ ([10] : List Nat) := hm
    have h10 : m = (10 : Nat) := List.mem_singleton.mp hm'
    rw [h10] at hres
    exact hres

end MCTS

namespace MCTS

variable {G : Engine}

/-- Counterexample to claim C9 as stated: a call to `mcts_search` with
`simulations = 0` (an out-of-range configuration, since the spec demands
`simulations ≥ 1`) is *not* rejected at the call boundary — the search body
runs, executes zero simulations, and returns the ordinary NoMove signal
`none`, on a live position (`C1Game` position 0) that is not game over and
has a legal move. -/
theorem C9_counterexample_zero_simulations_not_rejected :
    mcts_search C1Game (fun p => C1Game.legal_moves p) (fun _ => (1 : Rat))
      (fun _ => 0) (0 : Nat) 0 = none ∧
    C1Game.is_game_over (0 : Nat) = false ∧
    C1Game.legal_moves (0 : Nat) ≠ [] := by
  refine ⟨rfl, rfl, ?_⟩
  show ([10] : List Nat) ≠ []
  decide

/-- Claim C9, amended as the counterexample forces: no call-boundary
validation exists.  A call with `simulations < 1` is executed as an empty
search: for every rules engine and every position — with or without legal
moves — `mcts_search` (and its `best_move_mcts` wrapper) with 0 simulations
runs and returns the NoMove signal instead of rejecting the configuration;
`depth < 1` and non-positive exploration constants are likewise accepted
unvalidated (the python code contains no parameter check at all). -/
theorem C9_no_call_boundary_validation (G : Engine)
    (shuffleOf : G.Position → List G.Move) (rollout : G.Position → Rat)
    (chooser : MTree G.Position G.Move → Nat) (b : G.Position) :
    mcts_search G shuffleOf rollout chooser b 0 = none ∧
    best_move_mcts G shuffleOf rollout chooser b 0 = none := by
  have h : mcts_search G shuffleOf rollout chooser b 0 = none := by
    rw [mcts_search]
    split
    · rfl
    · rfl
  exact ⟨h, h⟩

/-- The rollout loop never plays more moves than its remaining budget. -/
theorem simLoop_le (pick : Nat → Nat) :
    ∀ (fuel steps : Nat) (b : G.Position),
      (simLoop G pick fuel steps b).2 ≤ steps + fuel
  | 0, steps, b => Nat.le_add_right steps 0
  | fuel + 1, steps, b => by
      rw [simLoop]
      split
      · omega
      · split
        · omega
        · refine le_trans (simLoop_le pick fuel (steps + 1) _) ?_
          omega

/-- A three-ply mate game for claim C10: positions count up from 0; `k` and
beyond are terminal checkmates; White moves on even positions. -/
def MateGame (k : Nat) : Engine where
  Position := Nat
  Move := Nat
  legal_moves := fun p => if p < k then [5] else []
  push := fun p _ => p + 1
  turn := fun p => p % 2 == 0
  is_game_over := fun p => decide (k ≤ p)
  is_checkmate := fun p => decide (k ≤ p)
  is_check := fun _ => false
  is_capture := fun _ _ => false
  promotion := fun _ => false
  to_square := fun _ => 0
  from_square := fun _ => 0
  piece_at := fun _ _ => none

/-- Claim C10: `simulate_random` plays at most `max_moves` random legal
moves (the python default is 200); it returns exactly 0 whenever the final
position is not checkmate — in particular when the move cap halts a game
still in progress, which is scored as a draw regardless of material — and
returns +1 when the final position is checkmate with Black to move and -1
when it is checkmate with White to move. -/
theorem C10_simulate_random_cap_and_scoring (G : Engine) (pick : Nat → Nat)
    (b : G.Position) (max_moves : Nat) :
    ((simLoop G pick max_moves 0 b).2 ≤ max_moves) ∧
    (G.is_checkmate (simLoop G pick max_moves 0 b).1 = false →
      simulate_random G pick b max_moves = 0) ∧
    (G.is_checkmate (simLoop G pick max_moves 0 b).1 = true →
      G.turn (simLoop G pick max_moves 0 b).1 = false →
      simulate_random G pick b max_moves = 1) ∧
    (G.is_checkmate (simLoop G pick max_moves 0 b).1 = true →
      G.turn (simLoop G pick max_moves 0 b).1 = true →
      simulate_random G pick b max_moves = -1) := by
  refine ⟨?_, ?_, ?_, ?_⟩
  · have h := simLoop_le pick max_moves 0 b
    omega
  · intro h
    rw [simulate_random]
    rw [if_neg (by rw [h]; exact Bool.false_ne_true)]
  · intro h1 h2
    rw [simulate_random]
    rw [if_pos h1, if_pos h2]
  · intro h1 h2
    rw [simulate_random]
    rw [if_pos h1, if_neg (by rw [h2]; exact Ne.symm Bool.false_ne_true)]

/-- Witness for claim C10 on concrete mate games: a game ending in
checkmate with Black to move scores +1, one ending with White to move
scores -1, and a rollout halted by the move cap while the game is still in
progress scores 0 (and plays no more than the cap). -/
theorem C10_simulate_random_witness :
    simulate_random (MateGame 3) (fun _ => 0) (0 : Nat) 5 = 1 ∧
    simulate_random (MateGame 2) (fun _ => 0) (0 : Nat) 5 = -1 ∧
    simulate_random (MateGame 3) (fun _ => 0) (0 : Nat) 2 = 0 ∧
    (simLoop (MateGame 3) (fun _ => 0) 5 0 (0 : Nat)).2 ≤ 5 := by
  refine ⟨?_, ?_, ?_, ?_⟩
  · exact (C10_simulate_random_cap_and_scoring (MateGame 3) (fun _ => 0)
      (0 : Nat) 5).2.2.1 (by decide) (by decide)
  · exact (C10_simulate_random_cap_and_scoring (MateGame 2) (fun _ => 0)
      (0 : Nat) 5).2.2.2 (by decide) (by decide)
  · exact (C10_simulate_random_cap_and_scoring (MateGame 3) (fun _ => 0)
      (0 : Nat) 2).2.1 (by decide)
  · exact (C10_simulate_random_cap_and_scoring (MateGame 3) (fun _ => 0)
      (0 : Nat) 5).1

end MCTS

namespace MCTS

/-- Stateful form of `mcts_search` for claim C5: the python function only
*reads* the caller's board (`board.is_game_over()`, `board.turn`,
`board.copy()` — all selections and rollouts act on copies), so its action
on the caller's move stack is the identity: it computes on the current
position and hands the stack back unchanged. -/
def mcts_searchS (G : Engine) (shuffleOf : G.Position → List G.Move)
    (rollout : G.Position → Rat) (chooser : MTree G.Position G.Move → Nat)
    (base : G.Position) (stk : List G.Move) (simulations : Nat) :
    Option G.Move × List G.Move :=
  (mcts_search G shuffleOf rollout chooser (Search.curPos G base stk) simulations,
   stk)

end MCTS

namespace Search

/-- Claim C5: after any call to `best_move_minimax` or to the MCTS search,
the caller's Position is unchanged: modelling the mutable python-chess
board as a base position plus the stack of applied moves (`move_stack`,
i.e. the serialized state), the stateful search — which performs every
`push` and `pop` exactly where the python code does, including before
pruning early-returns — returns the move stack it was given, on every
input and every exit path; and its answer is the pure function of the
current position.  The MCTS entry point never touches the caller's stack
at all. -/
theorem C5_caller_position_unchanged :
    (∀ (G : Engine) (ev : G.Position → Int) (base : G.Position)
        (stk : List G.Move) (depth : Nat),
      (best_move_minimaxS G ev base stk depth).2 = stk ∧
      (best_move_minimaxS G ev base stk depth).1
        = best_move_minimax G ev (curPos G base stk) depth) ∧
    (∀ (G : Engine) (shuffleOf : G.Position → List G.Move)
        (rollout : G.Position → Rat)
        (chooser : MCTS.MTree G.Position G.Move → Nat)
        (base : G.Position) (stk : List G.Move) (N : Nat),
      (MCTS.mcts_searchS G shuffleOf rollout chooser base stk N).2 = stk) := by
  constructor
  · intro G ev base stk depth
    rw [best_move_minimaxS_eq]
    exact ⟨rfl, rfl⟩
  · intro G shuffleOf rollout chooser base stk N
    rfl

end Search

namespace Evaluator

/-! ## The position evaluator (`src/engine/evaluator.py`)

python-chess conventions: squares are 0..63 with `square = rank * 8 + file`
(A1 = 0); piece types are PAWN = 1, KNIGHT = 2, BISHOP = 3, ROOK = 4,
QUEEN = 5, KING = 6; colors are WHITE = `true`, BLACK = `false`.  A board is
embedded as the snapshot of the Rules-Engine queries `evaluate` performs. -/

/-- A piece: python-chess `Piece` (piece_type, color). -/
structure Piece where
  piece_type : Nat
  color : Bool
deriving DecidableEq

/-- `PIECE_VALUES` (evaluator.py lines 17-24), in centipawns. -/
def PIECE_VALUES (pt : Nat) : Int :=
  if pt = 1 then 100
  else if pt = 2 then 300
  else if pt = 3 then 300
  else if pt = 4 then 500
  else if pt = 5 then 900
  else 0

/-- `CENTER_SQUARES` = [D4, E4, D5, E5] (evaluator.py line 27). -/
def CENTER_SQUARES : List Nat := [27, 28, 35, 36]

/-- `EXTENDED_CENTER` (evaluator.py lines 30-35): C3-F3, C4-F4, C5-F5,
C6-F6. -/
def EXTENDED_CENTER : List Nat :=
  [18, 19, 20, 21, 26, 27, 28, 29, 34, 35, 36, 37, 42, 43, 44, 45]

/-- `WHITE_KNIGHT_START` = [B1, G1]. -/
def WHITE_KNIGHT_START : List Nat := [1, 6]

/-- `BLACK_KNIGHT_START` = [B8, G8]. -/
def BLACK_KNIGHT_START : List Nat := [57, 62]

/-- `WHITE_BISHOP_START` = [C1, F1]. -/
def WHITE_BISHOP_START : List Nat := [2, 5]

/-- `BLACK_BISHOP_START` = [C8, F8]. -/
def BLACK_BISHOP_START : List Nat := [58, 61]

/-- The snapshot of a python-chess `Board` as consumed by `evaluate`: the
Rules Engine (python-chess) is external, so the board is the record of its
query results. -/
structure EvalBoard where
  piece_at : Nat → Option Piece
  turn : Bool
  is_checkmate : Bool
  is_stalemate : Bool
  is_insufficient_material : Bool
  is_check : Bool
  fullmove_number : Nat
  has_kingside_castling_rights : Bool → Bool
  has_queenside_castling_rights : Bool → Bool
  king : Bool → Option Nat
  legal_moves_count : Nat

/-- `evaluate_material` (evaluator.py lines 44-78): sum the piece values
over all 64 squares, White positive. -/
def evaluate_material (b : EvalBoard) : Int :=
  (List.range 64).foldl
    (fun score sq =>
      match b.piece_at sq with
      | some piece =>
          if piece.color then score + PIECE_VALUES piece.piece_type
          else score - PIECE_VALUES piece.piece_type
      | none => score)
    0

/-- `evaluate_center_control` (evaluator.py lines 81-131). -/
def evaluate_center_control (b : EvalBoard) : Int :=
  (CENTER_SQUARES.foldl
    (fun score sq =>
      match b.piece_at sq with
      | some piece =>
          let bonus : Int :=
            if piece.piece_type = 1 then 30
            else if piece.piece_type = 2 ∨ piece.piece_type = 3 then 20
            else 10
          if piece.color then score + bonus else score - bonus
      | none => score)
    0)
  +
  (EXTENDED_CENTER.foldl
    (fun score sq =>
      if sq ∈ CENTER_SQUARES then score
      else
        match b.piece_at sq with
        | some piece =>
            let bonus : Int :=
              if piece.piece_type = 1 then 10
              else if piece.piece_type = 2 ∨ piece.piece_type = 3 then 10
              else 5
            if piece.color then score + bonus else score - bonus
        | none => score)
    0)

/-- `evaluate_piece_development` (evaluator.py lines 134-176): only within
the first 10 full moves, penalties for knights and bishops still on their
starting squares. -/
def evaluate_piece_development (b : EvalBoard) : Int :=
  if b.fullmove_number ≤ 10 then
    (WHITE_KNIGHT_START.foldl
      (fun score sq =>
        match b.piece_at sq with
        | some piece =>
            if piece.piece_type = 2 ∧ piece.color = true then score - 15 else score
        | none => score)
      0)
    +
    (BLACK_KNIGHT_START.foldl
      (fun score sq =>
        match b.piece_at sq with
        | some piece =>
            if piece.piece_type = 2 ∧ piece.color = false then score + 15 else score
        | none => score)
      0)
    +
    (WHITE_BISHOP_START.foldl
      (fun score sq =>
        match b.piece_at sq with
        | some piece =>
            if piece.piece_type = 3 ∧ piece.color = true then score - 10 else score
        | none => score)
      0)
    +
    (BLACK_BISHOP_START.foldl
      (fun score sq =>
        match b.piece_at sq with
        | some piece =>
            if piece.piece_type = 3 ∧ piece.color = false then score + 10 else score
        | none => score)
      0)
  else 0

/-- `evaluate_king_safety` (evaluator.py lines 179-256). -/
def evaluate_king_safety (b : EvalBoard) : Int :=
  (if b.has_kingside_castling_rights true then 10 else 0)
  + (if b.has_queenside_castling_rights true then 5 else 0)
  + (if b.has_kingside_castling_rights false then -10 else 0)
  + (if b.has_queenside_castling_rights false then -5 else 0)
  +
  (if b.king true = some 6 then
    30
    + (if b.piece_at 13 = some ⟨1, true⟩ then 10 else 0)
    + (if b.piece_at 14 = some ⟨1, true⟩ then 10 else 0)
    + (if b.piece_at 15 = some ⟨1, true⟩ then 10 else 0)
  else if b.king true = some 2 then
    30
    + (if b.piece_at 8 = some ⟨1, true⟩ then 10 else 0)
    + (if b.piece_at 9 = some ⟨1, true⟩ then 10 else 0)
    + (if b.piece_at 10 = some ⟨1, true⟩ then 10 else 0)
  else 0)
  +
  (if b.king false = some 62 then
    -30
    + (if b.piece_at 53 = some ⟨1, false⟩ then -10 else 0)
    + (if b.piece_at 54 = some ⟨1, false⟩ then -10 else 0)
    + (if b.piece_at 55 = some ⟨1, false⟩ then -10 else 0)
  else if b.king false = some 58 then
    -30
    + (if b.piece_at 48 = some ⟨1, false⟩ then -10 else 0)
    + (if b.piece_at 49 = some ⟨1, false⟩ then -10 else 0)
    + (if b.piece_at 50 = some ⟨1, false⟩ then -10 else 0)
  else 0)
  +
  (match b.king true with
   | some sq => if sq ∈ CENTER_SQUARES ∨ sq ∈ EXTENDED_CENTER then -40 else 0
   | none => 0)
  +
  (match b.king false with
   | some sq => if sq ∈ CENTER_SQUARES ∨ sq ∈ EXTENDED_CENTER then 40 else 0
   | none => 0)

/-- Ranks (0..7) of the White pawns on a file, ascending — the order the
python loop collects them. -/
def whitePawnRanks (b : EvalBoard) (file : Nat) : List Nat :=
  (List.range 8).filter (fun rank => b.piece_at (rank * 8 + file) = some ⟨1, true⟩)

/-- Ranks of the Black pawns on a file, ascending. -/
def blackPawnRanks (b : EvalBoard) (file : Nat) : List Nat :=
  (List.range 8).filter (fun rank => b.piece_at (rank * 8 + file) = some ⟨1, false⟩)

/-- Is there a White pawn anywhere on the file? -/
def hasWhitePawn (b : EvalBoard) (file : Nat) : Bool :=
  (List.range 8).any (fun rank => b.piece_at (rank * 8 + file) = some ⟨1, true⟩)

/-- Is there a Black pawn anywhere on the file? -/
def hasBlackPawn (b : EvalBoard) (file : Nat) : Bool :=
  (List.range 8).any (fun rank => b.piece_at (rank * 8 + file) = some ⟨1, false⟩)

/-- Is there a Black pawn on `file` strictly above rank `wr`? (blocks a
White passed pawn) -/
def blackPawnAbove (b : EvalBoard) (file wr : Nat) : Bool :=
  (List.range 8).any
    (fun r => decide (wr < r) && decide (b.piece_at (r * 8 + file) = some ⟨1, false⟩))

/-- Is there a White pawn on `file` strictly below rank `br`? (blocks a
Black passed pawn) -/
def whitePawnBelow (b : EvalBoard) (file br : Nat) : Bool :=
  (List.range 8).any
    (fun r => decide (r < br) && decide (b.piece_at (r * 8 + file) = some ⟨1, true⟩))

/-- `evaluate_pawn_structure` (evaluator.py lines 259-392): per file,
doubled-pawn penalties, isolated-pawn penalties (no friendly pawn on an
adjacent file), and passed-pawn bonuses scaled by advancement. -/
def evaluate_pawn_structure (b : EvalBoard) : Int :=
  (List.range 8).foldl
    (fun score file =>
      let wpf := whitePawnRanks b file
      let bpf := blackPawnRanks b file
      let score := score
        + (if 1 < wpf.length then -20 * ((wpf.length : Int) - 1) else 0)
        + (if 1 < bpf.length then 20 * ((bpf.length : Int) - 1) else 0)
      let whiteSupport : Bool :=
        (decide (0 < file) && hasWhitePawn b (file - 1))
        || (decide (file < 7) && hasWhitePawn b (file + 1))
      let blackSupport : Bool :=
        (decide (0 < file) && hasBlackPawn b (file - 1))
        || (decide (file < 7) && hasBlackPawn b (file + 1))
      let score := score
        + (if wpf ≠ [] ∧ whiteSupport = false then -15 * (wpf.length : Int) else 0)
        + (if bpf ≠ [] ∧ blackSupport = false then 15 * (bpf.length : Int) else 0)
      let score := wpf.foldl
        (fun score wr =>
          let passed : Bool :=
            !(blackPawnAbove b file wr)
            && (decide (file = 0) || !(blackPawnAbove b (file - 1) wr))
            && (decide (file = 7) || !(blackPawnAbove b (file + 1) wr))
          if passed then score + (20 + (wr : Int) * 10) else score)
        score
      bpf.foldl
        (fun score br =>
          let passed : Bool :=
            !(whitePawnBelow b file br)
            && (decide (file = 0) || !(whitePawnBelow b (file - 1) br))
            && (decide (file = 7) || !(whitePawnBelow b (file + 1) br))
          if passed then score - (20 + ((7 : Int) - (br : Int)) * 10) else score)
        score)
    0

/-- `evaluate` (evaluator.py lines 395-457): checkmate ⇒ ±100000 with the
negative sign for the side to move; stalemate or insufficient material ⇒ 0;
otherwise material + center control + development + king safety + pawn
structure, a ±50 check bonus, and a mobility tie-break of ± the legal-move
count. -/
def evaluate (b : EvalBoard) : Int :=
  if b.is_checkmate then
    (if b.turn then -100000 else 100000)
  else if b.is_stalemate || b.is_insufficient_material then 0
  else
    evaluate_material b
    + evaluate_center_control b
    + evaluate_piece_development b
    + evaluate_king_safety b
    + evaluate_pawn_structure b
    + (if b.is_check then (if b.turn then -50 else 50) else 0)
    + (if b.turn then (b.legal_moves_count : Int) else -(b.legal_moves_count : Int))

/-- Claim C6: on a checkmate position `evaluate` returns ±100000 (±
`MATE_SCORE`) with the negative sign for the side to move (the side being
mated): -100000 when White is to move, +100000 when Black is to move; on a
stalemate or insufficient-material position (which is never also a
checkmate) it returns 0. -/
theorem C6_evaluate_terminal_scores (b : EvalBoard) :
    (b.is_checkmate = true →
      evaluate b = (if b.turn then -100000 else 100000)) ∧
    (b.is_checkmate = false →
      (b.is_stalemate = true ∨ b.is_insufficient_material = true) →
      evaluate b = 0) := by
  constructor
  · intro h
    rw [evaluate, if_pos h]
  · intro h hdraw
    rw [evaluate, if_neg (by rw [h]; exact Bool.false_ne_true)]
    rw [if_pos ?_]
    rcases hdraw with h1 | h1 <;> rw [h1] <;> simp

/-- Snapshot of the fool's-mate position
`rnb1kbnr/pppp1ppp/8/4p3/6Pq/5P2/PPPPP2P/RNBQKBNR w KQkq - 0 3`
restricted to the queries claim C6 needs: White to move and checkmated
(piece placement and the other fields are irrelevant to the checkmate
branch and are left trivial). -/
def foolsMateBoard : EvalBoard where
  piece_at := fun _ => none
  turn := true
  is_checkmate := true
  is_stalemate := false
  is_insufficient_material := false
  is_check := true
  fullmove_number := 3
  has_kingside_castling_rights := fun _ => true
  has_queenside_castling_rights := fun _ => true
  king := fun c => if c then some 4 else some 60
  legal_moves_count := 0

/-- A stalemate snapshot (e.g. `k7/8/1Q6/8/8/8/8/7K b - - 0 1`, Black to
move, no legal moves, not in check). -/
def stalemateBoard : EvalBoard where
  piece_at := fun _ => none
  turn := false
  is_checkmate := false
  is_stalemate := true
  is_insufficient_material := false
  is_check := false
  fullmove_number := 1
  has_kingside_castling_rights := fun _ => false
  has_queenside_castling_rights := fun _ => false
  king := fun c => if c then some 7 else some 56
  legal_moves_count := 0

/-- Witness for claim C6: the White-to-move checkmate snapshot evaluates to
-100000 and the stalemate snapshot to 0, by the claim's theorem applied at
those concrete boards. -/
theorem C6_evaluate_terminal_witness :
    evaluate foolsMateBoard = -100000 ∧ evaluate stalemateBoard = 0 := by
  constructor
  · exact (C6_evaluate_terminal_scores foolsMateBoard).1 rfl
  · exact (C6_evaluate_terminal_scores stalemateBoard).2 rfl (Or.inl rfl)

end Evaluator

namespace Search

/-- Witness for claim C4 at concrete inputs: on `FSGame`'s live root with
window `(0, 1)`, maximizing quiescence stays at or below `β` and — since
the true quiescence value (3) is at or above `β` — returns exactly `β`;
with window `(5, 9)` the minimizing quiescence returns exactly `α` on its
alpha cutoff. -/
theorem C4_fail_soft_fail_hard_witness :
    quiescence_search FSGame FSev 1 (0 : Nat) (fin 0) (fin 1) true ≤ fin 1 ∧
    fin 0 ≤ quiescence_search FSGame FSev 1 (0 : Nat) (fin 0) (fin 1) false ∧
    quiescence_search FSGame FSev 1 (0 : Nat) (fin 0) (fin 1) true = fin 1 ∧
    quiescence_search FSGame FSev 1 (0 : Nat) (fin 5) (fin 9) false = fin 5 := by
  refine ⟨?_, ?_, ?_, ?_⟩
  · exact ((C4_fail_soft_minimax_fail_hard_quiescence).1 FSGame FSev 0 (0 : Nat)
      (fin 0) (fin 1) rfl (by decide)).1
  · exact ((C4_fail_soft_minimax_fail_hard_quiescence).1 FSGame FSev 0 (0 : Nat)
      (fin 0) (fin 1) rfl (by decide)).2
  · exact ((C4_fail_soft_minimax_fail_hard_quiescence).2.1 FSGame FSev 0 (0 : Nat)
      (fin 0) (fin 1) rfl (by decide)).1 (by decide)
  · exact ((C4_fail_soft_minimax_fail_hard_quiescence).2.1 FSGame FSev 0 (0 : Nat)
      (fin 5) (fin 9) rfl (by decide)).2 (by decide)

end Search

end ChessRL
